import Mathlib

/-!
Verification development for the indexing/retrieval core of the mechanic-mcp
repository (src/core/indexer.ts) together with the pagination logic of the
search_tasks tool handler (src/mcp/server.ts).

JavaScript data is modelled as follows: a Record<string, number> object is an
association list (List (String x Nat)) preserving key insertion order, since
object key iteration order for the non-numeric keys produced here is insertion
order; a Set<string> is a duplicate-free List String in insertion order;
Array.prototype.sort with a comparator (stable per the ECMAScript spec) is
modelled by a structural stable insertion sort, which produces the unique
stable sorted permutation for the consistent total-preorder comparators used
by the source; IEEE floats are modelled as real numbers, with Math.log as
Real.log; fallible lookups use Option.
-/

namespace Mechanic

/-! ### Association-list maps (Record<string, number>) -/

/-- Lookup in an insertion-ordered map, with 0 for a missing key:
models (m[token] || 0). -/
def lookupTf (m : List (String × Nat)) (k : String) : Nat :=
  match m.find? (fun p => p.1 == k) with
  | some p => p.2
  | none => 0

/-- Increment a key in an insertion-ordered map: models
m[k] = (m[k] || 0) + 1, which updates the value in place when the key
exists and otherwise appends the key at the end. -/
def bumpTf (m : List (String × Nat)) (k : String) : List (String × Nat) :=
  if m.any (fun p => p.1 == k) then
    m.map (fun p => if p.1 == k then (p.1, p.2 + 1) else p)
  else m ++ [(k, 1)]

/-! ### Stable sort (Array.prototype.sort with a comparator) -/

/-- Insert x after every element y with le y x; the insertion step of a
stable insertion sort. -/
def insertLe (le : α → α → Bool) (x : α) : List α → List α
  | [] => [x]
  | y :: ys => if le y x then y :: insertLe le x ys else x :: y :: ys

/-- Stable sort: inserting the elements left to right keeps the original
relative order of elements that compare equal, exactly as the ECMAScript
stable Array.prototype.sort does for a consistent comparator cmp, with
le a b meaning cmp(a, b) <= 0. -/
def stableSort (le : α → α → Bool) (l : List α) : List α :=
  l.foldl (fun acc x => insertLe le x acc) []

/-! ### Tokenizer (src/core/indexer.ts, tokenize / countTokens) -/

/-- JavaScript String.prototype.toLowerCase, character by character. For
characters outside the ASCII range the two functions may differ, but both
sides produce characters outside [a-z0-9] there, which the tokenizer
treats as separators either way, and the filters of searchAdvanced are
only ever applied to ASCII data in this development. -/
def toLowerStr (s : String) : String :=
  String.mk (s.data.map Char.toLower)

/-- The fixed stop-word set of the source. -/
def STOP_WORDS : List String :=
  ["a", "an", "and", "for", "from", "in", "of", "on", "or", "the", "to", "with"]

/-- A character kept inside a token: the source splits the lower-cased text
on every run of characters outside [a-z0-9] (the preceding replacement of
underscore and slash by spaces only turns them into split characters,
which they already are). -/
def isTokenChar (c : Char) : Bool :=
  (('a' ≤ c && c ≤ 'z') || ('0' ≤ c && c ≤ '9'))

/-- Split a character list into the maximal runs of token characters,
accumulating the current run in reverse. -/
def tokenWords : List Char → List Char → List String
  | [], acc => if acc.isEmpty then [] else [String.mk acc.reverse]
  | c :: cs, acc =>
    if isTokenChar c then tokenWords cs (c :: acc)
    else (if acc.isEmpty then [] else [String.mk acc.reverse]) ++ tokenWords cs []

/-- tokenize: lower-case, split on runs of non [a-z0-9] characters, drop
empty tokens, drop stop words. -/
def tokenize (text : String) : List String :=
  (tokenWords (toLowerStr text).data []).filter (fun t => !STOP_WORDS.contains t)

/-- countTokens: per-token occurrence counts of the token sequence, an
insertion-ordered map built by repeated increments. -/
def countTokens (text : String) : List (String × Nat) :=
  (tokenize text).foldl (fun m t => bumpTf m t) []

/-! ### Levenshtein distance (src/core/indexer.ts, levenshtein)

The source fills the standard dynamic-programming table dp where
dp[i][j] = min(dp[i-1][j] + 1, dp[i][j-1] + 1, dp[i-1][j-1] + cost) with
unit insertion/deletion/substitution cost; here the same table is computed
row by row (levStep produces row i from row i-1), structurally. -/

/-- One step of the inner column loop: given the current character of a,
the remaining characters of b, the remaining entries of the previous row
starting at dp[i-1][j], the diagonal value dp[i-1][j-1] and the value
dp[i][j-1] to the left, produce dp[i][j...]. -/
def levStepGo (ca : Char) : List Char → List Nat → Nat → Nat → List Nat
  | [], _, _, _ => []
  | cb :: bs, prev, diag, left =>
    let up := prev.headD 0
    let cost := if ca == cb then 0 else 1
    let cur := min (min (up + 1) (left + 1)) (diag + cost)
    cur :: levStepGo ca bs prev.tail up cur

/-- Compute row i of the table from row i-1; dp[i][0] = i. -/
def levStep (ca : Char) (bs : List Char) (prevRow : List Nat) : List Nat :=
  let first := prevRow.headD 0 + 1
  first :: levStepGo ca bs prevRow.tail (prevRow.headD 0) first

/-- levenshtein with the source's early returns for equal and empty
strings; the answer is the last entry dp[a.length][b.length] of the final
row. -/
def levenshtein (a b : String) : Nat :=
  if a == b then 0
  else if a.data.isEmpty then b.data.length
  else if b.data.isEmpty then a.data.length
  else
    (a.data.foldl (fun row ca => levStep ca b.data row)
      (List.range (b.data.length + 1))).getLastD 0

/-! ### Records and field extraction (src/types.ts, FIELD_CONFIG) -/

inductive ResourceKind where
  | doc
  | task
deriving DecidableEq

/-- The record union. Ingestion-only fields that the core never reads
(risk, options, script, summary, source urls, storefront scripts) are
omitted; all fields read by FIELD_CONFIG, the filters and the snippet
builder are present. The doc variant field named section in the source is
called sectionName here because section is a Lean keyword. -/
inductive RecordItem where
  | doc (id title path : String) (sectionName : Option String)
      (tags headings : List String) (content : String)
  | task (id slug title path : String)
      (tags events actions scopes : List String) (content : String)
      (subscriptions_template : Option String)
deriving DecidableEq

def RecordItem.kind : RecordItem → ResourceKind
  | .doc .. => .doc
  | .task .. => .task

def RecordItem.id : RecordItem → String
  | .doc i .. => i
  | .task i .. => i

def RecordItem.title : RecordItem → String
  | .doc _ t .. => t
  | .task _ _ t .. => t

def RecordItem.path : RecordItem → String
  | .doc _ _ p .. => p
  | .task _ _ _ p .. => p

def RecordItem.tags : RecordItem → List String
  | .doc _ _ _ _ tg _ _ => tg
  | .task _ _ _ _ tg _ _ _ _ _ => tg

def RecordItem.content : RecordItem → String
  | .doc _ _ _ _ _ _ c => c
  | .task _ _ _ _ _ _ _ _ c _ => c

def RecordItem.events : RecordItem → List String
  | .doc .. => []
  | .task _ _ _ _ _ ev _ _ _ _ => ev

def RecordItem.headings : RecordItem → List String
  | .doc _ _ _ _ _ hs _ => hs
  | .task .. => []

def RecordItem.subscriptions_template : RecordItem → Option String
  | .doc .. => none
  | .task _ _ _ _ _ _ _ _ _ st => st

/-- The per-field extractor of FIELD_CONFIG. Fields not applicable to a
variant contribute the empty string. -/
def extractField (field : String) (item : RecordItem) : String :=
  match field with
  | "title" => item.title
  | "tags" => String.intercalate " " item.tags
  | "content" => item.content
  | "slug" =>
    match item with
    | .task _ s .. => s
    | .doc .. => ""
  | "headings" =>
    match item with
    | .doc _ _ _ _ _ hs _ => String.intercalate " " hs
    | .task .. => ""
  | "section" =>
    match item with
    | .doc _ _ _ sec _ _ _ => sec.getD ""
    | .task .. => ""
  | "events" =>
    match item with
    | .task _ _ _ _ _ ev _ _ _ _ => String.intercalate " " ev
    | .doc .. => ""
  | "actions" =>
    match item with
    | .task _ _ _ _ _ _ ac _ _ _ => String.intercalate " " ac
    | .doc .. => ""
  | "scopes" =>
    match item with
    | .task _ _ _ _ _ _ _ sc _ _ => String.intercalate " " sc
    | .doc .. => ""
  | _ => ""

/-- The FIELD_CONFIG table in source declaration order, with the weights
title 5, tags 3.5, content 1.5, slug 4, headings 3, section 2, events 2,
actions 2, scopes 2 as rationals. -/
def FIELDS : List (String × ℚ) :=
  [("title", 5), ("tags", 7/2), ("content", 3/2), ("slug", 4),
   ("headings", 3), ("section", 2), ("events", 2), ("actions", 2),
   ("scopes", 2)]

/-- The weight lookup of the scorer: FIELD_CONFIG[field]?.weight ?? 1. -/
def fieldWeight (field : String) : ℚ :=
  match FIELDS.find? (fun p => p.1 == field) with
  | some p => p.2
  | none => 1

/-! ### Index construction (indexRecord / buildDocFrequency / buildIndex) -/

structure IndexedDocument where
  id : String
  kind : ResourceKind
  path : String
  tags : List String
  fieldText : List (String × String)
  tokenFreq : List (String × List (String × Nat))
  raw : RecordItem
deriving DecidableEq

/-- indexRecord: extract and tokenize every configured field. -/
def indexRecord (item : RecordItem) : IndexedDocument :=
  ⟨item.id, item.kind, item.path, item.tags,
   FIELDS.map (fun f => (f.1, extractField f.1 item)),
   FIELDS.map (fun f => (f.1, countTokens (extractField f.1 item))),
   item⟩

/-- Insert into a Set<string>: no duplicates, insertion order kept. -/
def insertNew (s : List String) (k : String) : List String :=
  if s.contains k then s else s ++ [k]

/-- The seen set of one document: every token of every field, once. -/
def seenTokens (d : IndexedDocument) : List String :=
  d.tokenFreq.foldl (fun s p => p.2.foldl (fun s2 q => insertNew s2 q.1) s) []

/-- buildDocFrequency: per document, bump the global counter once for each
token of the document's seen set. -/
def buildDocFrequency (docs : List IndexedDocument) : List (String × Nat) :=
  docs.foldl (fun m d => (seenTokens d).foldl bumpTf m) []

structure BuiltIndex where
  documents : List IndexedDocument
  docFreq : List (String × Nat)
  totalDocuments : Nat

def buildIndex (records : List RecordItem) : BuiltIndex :=
  let docs := records.map indexRecord
  ⟨docs, buildDocFrequency docs, docs.length⟩

/-! ### Fuzzy expander (fuzzyMatchToken / buildTokenCandidates) -/

structure Candidate where
  token : String
  distance : Nat
  weight : ℚ
deriving DecidableEq

structure TokenCandidate where
  queryToken : String
  candidates : List Candidate
deriving DecidableEq

/-- distance 0 gives weight 1, distance 1 gives 0.6, distance 2 or more
gives 0.3. -/
def distWeight (d : Nat) : ℚ :=
  if d = 0 then 1 else if d = 1 then 3/5 else 3/10

/-- The vocabulary scan of fuzzyMatchToken: every docFreq key within the
edit budget, in vocabulary (insertion) order. -/
def vocabCandidates (tok : String) (docFreq : List (String × Nat))
    (maxEdits : Nat) : List Candidate :=
  docFreq.filterMap (fun p =>
    let d := levenshtein tok p.1
    if d ≤ maxEdits then some ⟨p.1, d, distWeight d⟩ else none)

/-- Append the synthesized exact entry when no distance-0 candidate
exists. -/
def withSynth (tok : String) (cs : List Candidate) : List Candidate :=
  if cs.any (fun c => c.distance == 0) then cs else cs ++ [⟨tok, 0, 1⟩]

/-- The candidate pool of fuzzyMatchToken before sorting and truncation. -/
def fuzzyCandidatesAll (tok : String) (docFreq : List (String × Nat))
    (maxEdits : Nat) : List Candidate :=
  withSynth tok (vocabCandidates tok docFreq maxEdits)

/-- The comparator of fuzzyMatchToken as a le relation: cmp(a, b) <= 0
for cmp = distance difference, then descending docFreq. -/
def candLe (docFreq : List (String × Nat)) (a b : Candidate) : Bool :=
  if a.distance ≠ b.distance then a.distance < b.distance
  else lookupTf docFreq b.token ≤ lookupTf docFreq a.token

/-- fuzzyMatchToken: scan, synthesize, stable sort, truncate. -/
def fuzzyMatchToken (tok : String) (docFreq : List (String × Nat))
    (maxEdits limit : Nat) : List Candidate :=
  (stableSort (candLe docFreq) (fuzzyCandidatesAll tok docFreq maxEdits)).take limit

/-- buildTokenCandidates: fuzzy expansion per query token, or the literal
singleton when fuzzy matching is disabled. -/
def buildTokenCandidates (tokens : List String) (docFreq : List (String × Nat))
    (fuzzy : Bool) (maxEdits maxCandidates : Nat) : List TokenCandidate :=
  tokens.map (fun t =>
    ⟨t, if fuzzy then fuzzyMatchToken t docFreq maxEdits maxCandidates
        else [⟨t, 0, 1⟩]⟩)

/-! ### Scorer (src/core/indexer.ts, scoreDocument)

The accumulated score is a real number; the source computes it in IEEE
floating point with Math.log, modelled here by exact real arithmetic with
Real.log. -/

/-- The inverse document frequency factor:
ln(1 + totalDocuments / (1 + (docFreq[token] || 0))). -/
noncomputable def idf (built : BuiltIndex) (token : String) : ℝ :=
  Real.log (1 + (built.totalDocuments : ℝ) / (1 + (lookupTf built.docFreq token : ℝ)))

/-- The score accumulation loops of scoreDocument: over every candidate
set, every candidate, every field, add freq * fieldWeight * idf * weight
whenever the candidate token's frequency in the field is nonzero. -/
noncomputable def scoreVal (doc : IndexedDocument) (tcs : List TokenCandidate)
    (built : BuiltIndex) : ℝ :=
  tcs.foldl (fun acc tc =>
    tc.candidates.foldl (fun acc2 c =>
      doc.tokenFreq.foldl (fun acc3 p =>
        let freq := lookupTf p.2 c.token
        if freq = 0 then acc3
        else acc3 + (freq : ℝ) * ((fieldWeight p.1 : ℚ) : ℝ) * idf built c.token
          * ((c.weight : ℚ) : ℝ)) acc2) acc) 0

/-- The kind gate at the top of scoreDocument:
if (kind and doc.kind is not kind) return null. -/
def kindMismatch (kind : Option ResourceKind) (doc : IndexedDocument) : Bool :=
  match kind with
  | some k => doc.kind != k
  | none => false

/-- scoreDocument: kind gate, score accumulation, and the zero-score
exclusion that only applies when the query produced at least one token. -/
noncomputable def scoreDocument (doc : IndexedDocument) (tcs : List TokenCandidate)
    (built : BuiltIndex) (kind : Option ResourceKind) : Option ℝ :=
  if kindMismatch kind doc then none
  else
    let score := scoreVal doc tcs built
    if 0 < tcs.length ∧ score = 0 then none else some score

/-- The per-candidate contribution of one field entry. -/
noncomputable def fieldTerm (built : BuiltIndex) (c : Candidate)
    (p : String × List (String × Nat)) : ℝ :=
  (lookupTf p.2 c.token : ℝ) * ((fieldWeight p.1 : ℚ) : ℝ) * idf built c.token
    * ((c.weight : ℚ) : ℝ)

/-- The contribution of one candidate across all fields of the document
that contain its token. -/
noncomputable def candTerm (built : BuiltIndex) (doc : IndexedDocument)
    (c : Candidate) : ℝ :=
  ((doc.tokenFreq.filter (fun p => decide (0 < lookupTf p.2 c.token))).map
    (fieldTerm built c)).sum

/-! ### Snippets (buildSnippet / buildDocSnippet) -/

/-- Does the needle occur at the start of the haystack
(String.prototype.startsWith over characters). -/
def strStarts : List Char → List Char → Bool
  | _, [] => true
  | [], _ :: _ => false
  | a :: as, b :: bs => a == b && strStarts as bs

/-- String.prototype.includes: the needle occurs somewhere in the
haystack. -/
def strIncludes (hay needle : String) : Bool :=
  go hay.data needle.data
where
  go : List Char → List Char → Bool
    | hay, needle =>
      strStarts hay needle ||
        match hay with
        | [] => false
        | _ :: t => go t needle

/-- String.prototype.indexOf: index of the first occurrence, if any. -/
def charIndexOf (hay needle : List Char) : Option Nat :=
  match hay with
  | [] => if strStarts [] needle then some 0 else none
  | _ :: t =>
    if strStarts hay needle then some 0
    else (charIndexOf t needle).map (· + 1)

/-- JavaScript String.prototype.slice(a, b) for 0 <= a, b. -/
def strSlice (s : String) (a b : Nat) : String :=
  String.mk ((s.data.take b).drop a)

/-- The token scan of buildSnippet: the match position of the first query
token found in the lower-cased text. -/
def firstMatchIdx (lower : List Char) (tokens : List String) : Option Nat :=
  match tokens with
  | [] => none
  | t :: ts =>
    match charIndexOf lower t.data with
    | some i => some i
    | none => firstMatchIdx lower ts

/-- buildSnippet with explicit window length (the source defaults the
length parameter to 200): a window of len characters around the first
match of any query token, trimmed, with ellipsis markers on truncated
sides; a plain leading substring when no token matches. -/
def buildSnippet (text : String) (queryTokens : List String) (len : Nat) : String :=
  if text == "" then ""
  else
    match firstMatchIdx (toLowerStr text).data queryTokens with
    | some idx =>
      let start := idx - len / 2
      let stop := min text.data.length (start + len)
      let pre := if 0 < start then "…" else ""
      let suf := if stop < text.data.length then "…" else ""
      pre ++ (strSlice text start stop).trim ++ suf
    | none => (strSlice text 0 len).trim

/-- buildDocSnippet: docs are prefixed with their first heading (or the
title when the headings list is empty or starts with an empty, falsy
string); tasks use their content directly. -/
def buildDocSnippet (item : RecordItem) (queryTokens : List String) : String :=
  match item with
  | .doc _ title _ _ _ headings content =>
    let h0 := headings.headD ""
    let heading := if h0 == "" then title else h0
    heading ++ ": " ++ buildSnippet content queryTokens 200
  | .task _ _ _ _ _ _ _ _ content _ => buildSnippet content queryTokens 200

/-! ### searchAdvanced (filters, scoring, sort, pagination) -/

/-- parseQuery is tokenize. -/
def parseQuery (query : String) : List String := tokenize query

/-- Search options; a none field means the caller omitted it and the
destructuring defaults of searchAdvanced apply (limit 10, offset 0,
fuzzy true, fuzzyMaxEdits 1, fuzzyMaxCandidates 3). -/
structure SearchOptions where
  query : String
  kind : Option ResourceKind
  limit : Option Nat
  offset : Option Nat
  fuzzy : Option Bool
  fuzzyMaxEdits : Option Nat
  fuzzyMaxCandidates : Option Nat
  tags : Option (List String)
  subscriptions : Option (List String)

/-- The structural filters applied inside the document loop of
searchAdvanced, before scoring: the tags filter (AND over requested tags,
case-insensitive) and the subscriptions filter (task documents only;
every requested substring must occur in the lower-cased space-joined
events plus subscriptions template). -/
def passesFilters (opts : SearchOptions) (doc : IndexedDocument) : Bool :=
  (match opts.tags with
   | some ts =>
     if 0 < ts.length then
       let docTags := if doc.raw.kind == ResourceKind.task then doc.raw.tags else doc.tags
       let lower := docTags.map toLowerStr
       ts.all (fun t => lower.contains (toLowerStr t))
     else true
   | none => true)
  &&
  (match opts.subscriptions with
   | some subs =>
     if 0 < subs.length && (doc.raw.kind == ResourceKind.task) then
       let subsText := String.intercalate " " (doc.raw.events.map toLowerStr)
       let templates := toLowerStr (doc.raw.subscriptions_template.getD "")
       let combined := subsText ++ " " ++ templates
       subs.all (fun s => strIncludes combined (toLowerStr s))
     else true
   | none => true)

/-- The token candidates computed once per query in searchAdvanced. -/
def queryCandidates (built : BuiltIndex) (opts : SearchOptions) : List TokenCandidate :=
  buildTokenCandidates (parseQuery opts.query) built.docFreq
    (opts.fuzzy.getD true) (opts.fuzzyMaxEdits.getD 1) (opts.fuzzyMaxCandidates.getD 3)

/-- The scored array built by the document loop of searchAdvanced: every
document that passes the structural filters and whose scoreDocument call
returns non-null, in corpus order, paired with its score. -/
noncomputable def scoredList (built : BuiltIndex) (opts : SearchOptions) :
    List (IndexedDocument × ℝ) :=
  built.documents.filterMap (fun doc =>
    if passesFilters opts doc then
      (scoreDocument doc (queryCandidates built opts) built opts.kind).map
        (fun s => (doc, s))
    else none)

/-- The comparator (a, b) => b.score - a.score as a le relation. -/
noncomputable def scoreLe (a b : IndexedDocument × ℝ) : Bool :=
  decide (b.2 ≤ a.2)

/-- One search hit of the result page. -/
structure SearchHit where
  id : String
  kind : ResourceKind
  title : String
  path : String
  snippet : String
  tags : List String
  score : ℝ

/-- The hit constructed for one scored document. -/
def mkHit (doc : IndexedDocument) (snippetTokens : List String) (score : ℝ) :
    SearchHit :=
  ⟨doc.id, doc.kind, doc.raw.title, doc.path,
   buildDocSnippet doc.raw snippetTokens, doc.tags, score⟩

/-- The snippet token pool: every candidate token of every query token. -/
def snippetTokensOf (built : BuiltIndex) (opts : SearchOptions) : List String :=
  (queryCandidates built opts).flatMap (fun t => t.candidates.map (fun c => c.token))

/-- searchAdvanced: filter and score the corpus, sort by score descending
(stable), slice the page [offset, offset + limit), and build hits. -/
noncomputable def searchAdvanced (built : BuiltIndex) (opts : SearchOptions) :
    List SearchHit :=
  ((((stableSort scoreLe (scoredList built opts)).drop (opts.offset.getD 0)).take
      (opts.limit.getD 10)).map
    (fun p => mkHit p.1 (snippetTokensOf built opts) p.2))

/-! ### The search_tasks tool handler (src/mcp/server.ts)

The zod input schema applies the defaults before the handler runs, so
every numeric input field is present: limit in [1, 50] with default 10,
offset >= 0 with default 0. -/

structure SearchTasksInput where
  query : String
  limit : Nat
  offset : Nat
  fuzzy : Bool
  fuzzyMaxEdits : Nat
  fuzzyMaxCandidates : Nat
  tags : Option (List String)
  subscriptions : Option (List String)

/-- The options the search_tasks handler passes to searchAdvanced: the
kind is forced to task and all schema-defaulted values are present. -/
def searchTasksOpts (i : SearchTasksInput) : SearchOptions :=
  ⟨i.query, some .task, some i.limit, some i.offset, some i.fuzzy,
   some i.fuzzyMaxEdits, some i.fuzzyMaxCandidates, i.tags, i.subscriptions⟩

/-- The pagination field of the search_tasks response:
hits.length === input.limit ? input.offset + input.limit : undefined. -/
noncomputable def searchTasksNextOffset (built : BuiltIndex) (i : SearchTasksInput) :
    Option Nat :=
  if (searchAdvanced built (searchTasksOpts i)).length = i.limit then
    some (i.offset + i.limit)
  else none

/-! ### Auxiliary definitions used by the claim statements -/

/-- The same search options with the subscriptions filter replaced. -/
def setSubs (o : SearchOptions) (v : Option (List String)) : SearchOptions :=
  ⟨o.query, o.kind, o.limit, o.offset, o.fuzzy, o.fuzzyMaxEdits,
   o.fuzzyMaxCandidates, o.tags, v⟩

/-- Double the count of one token inside the named field entry, leaving
every other key and entry unchanged. -/
def dblF (field tk : String) (p : String × List (String × Nat)) :
    String × List (String × Nat) :=
  if p.1 = field then
    (p.1, p.2.map (fun q => if q.1 = tk then (q.1, 2 * q.2) else q))
  else p

/-- The document with the occurrence count of one token doubled in one
field, everything else unchanged. -/
def doubleFreq (doc : IndexedDocument) (field tk : String) : IndexedDocument :=
  ⟨doc.id, doc.kind, doc.path, doc.tags, doc.fieldText,
   doc.tokenFreq.map (dblF field tk), doc.raw⟩

/-! ### Concrete corpora for counterexamples and witnesses -/

/-- Corpus for the fuzzy-truncation analysis: d1 is the only document
containing the token aaaa; the tokens baab and caab each occur in two
documents, so both outrank aaaa among the distance-1 candidates of the
query token aaab. -/
def exRecordsA : List RecordItem :=
  [RecordItem.doc "d1" "" "" none [] [] "aaaa",
   RecordItem.doc "d2" "" "" none [] [] "baab caab",
   RecordItem.doc "d3" "" "" none [] [] "baab caab"]

def exBuiltA : BuiltIndex := buildIndex exRecordsA

def exDoc1 : IndexedDocument :=
  indexRecord (RecordItem.doc "d1" "" "" none [] [] "aaaa")

def exDoc2 : IndexedDocument :=
  indexRecord (RecordItem.doc "d2" "" "" none [] [] "baab caab")

def exDoc3 : IndexedDocument :=
  indexRecord (RecordItem.doc "d3" "" "" none [] [] "baab caab")

/-- Exact search for aaaa with fuzzy matching disabled. -/
def exOptsExact : SearchOptions :=
  ⟨"aaaa", none, some 10, some 0, some false, some 1, some 3, none, none⟩

/-- Fuzzy search for the distance-1 typo aaab with the default candidate
budget 3. -/
def exOptsFuzzy3 : SearchOptions :=
  ⟨"aaab", none, some 10, some 0, some true, some 1, some 3, none, none⟩

/-- The same fuzzy search with candidate budget 5, enough to keep every
candidate. -/
def exOptsFuzzy5 : SearchOptions :=
  ⟨"aaab", none, some 10, some 0, some true, some 1, some 5, none, none⟩

/-- A single task record whose corpus makes a full page of exactly one
hit. -/
def exTaskRec : RecordItem :=
  RecordItem.task "t1" "alpha" "Alpha" "p" [] [] [] [] "" none

def exBuiltT : BuiltIndex := buildIndex [exTaskRec]

/-- search_tasks input: stop-word query, limit 1, offset 0. -/
def exInputC1 : SearchTasksInput := ⟨"the", 1, 0, true, 1, 3, none, none⟩

/-- A task record carrying the tag Alpha. -/
def exTagRec : RecordItem :=
  RecordItem.task "t2" "beta" "Beta" "p" ["Alpha"] [] [] [] "" none

def exBuiltTag : BuiltIndex := buildIndex [exTagRec]

/-- A browse-all query filtered by the tag ALPHA in a different case. -/
def exOptsTag : SearchOptions :=
  ⟨"the of", none, none, none, none, none, none, some ["ALPHA"], none⟩

/-- A pure stop-word query with no filters. -/
def exOptsStop : SearchOptions :=
  ⟨"the of", none, none, none, none, none, none, none, none⟩

/-- A stop-word query with a subscriptions filter. -/
def exOptsSubs : SearchOptions :=
  ⟨"the of", none, none, none, none, none, none, none, some ["x"]⟩

/-- A hand-built indexed document with the token xx once in its content
field, for the monotonicity witness. -/
def exDocC8 : IndexedDocument :=
  ⟨"x", .task, "", [], [], [("content", [("xx", 1)])],
   RecordItem.task "x" "" "" "" [] [] [] [] "" none⟩

def exBuiltC8 : BuiltIndex := ⟨[exDocC8], [("xx", 1)], 1⟩

/-! ## Lemmas about the stable sort -/

theorem mem_insertLe {le : α → α → Bool} {x a : α} {l : List α} :
    a ∈ insertLe le x l ↔ a = x ∨ a ∈ l := by
  induction l with
  | nil => simp [insertLe]
  | cons y ys ih =>
    by_cases h : le y x = true
    · simp only [insertLe, if_pos h, List.mem_cons, ih]
      tauto
    · simp only [insertLe, if_neg h, List.mem_cons]

theorem perm_insertLe {le : α → α → Bool} (x : α) (l : List α) :
    (insertLe le x l).Perm (x :: l) := by
  induction l with
  | nil => simp [insertLe]
  | cons y ys ih =>
    by_cases h : le y x = true
    · simp only [insertLe, if_pos h]
      exact (ih.cons y).trans (List.Perm.swap x y ys)
    · simp [insertLe, if_neg h]

theorem foldl_insertLe_perm {le : α → α → Bool} (l acc : List α) :
    (l.foldl (fun acc x => insertLe le x acc) acc).Perm (acc ++ l) := by
  induction l generalizing acc with
  | nil => simp
  | cons x xs ih =>
    simp only [List.foldl_cons]
    refine (ih (insertLe le x acc)).trans ?_
    refine (((perm_insertLe x acc).append_right xs).trans ?_)
    exact List.perm_middle.symm

theorem stableSort_perm {le : α → α → Bool} (l : List α) :
    (stableSort le l).Perm l := by
  simpa [stableSort] using @foldl_insertLe_perm _ le l []

theorem mem_stableSort {le : α → α → Bool} {a : α} {l : List α} :
    a ∈ stableSort le l ↔ a ∈ l :=
  (stableSort_perm l).mem_iff

theorem length_stableSort {le : α → α → Bool} (l : List α) :
    (stableSort le l).length = l.length :=
  (stableSort_perm l).length_eq

theorem pairwise_insertLe {le : α → α → Bool}
    (htrans : ∀ a b c, le a b = true → le b c = true → le a c = true)
    (htot : ∀ a b, le a b = true ∨ le b a = true)
    {x : α} {l : List α} (hl : l.Pairwise (fun a b => le a b = true)) :
    (insertLe le x l).Pairwise (fun a b => le a b = true) := by
  induction l with
  | nil => simp [insertLe]
  | cons y ys ih =>
    rcases hl with _ | ⟨hy, hys⟩
    by_cases h : le y x = true
    · simp only [insertLe, if_pos h]
      refine List.Pairwise.cons ?_ (ih hys)
      intro z hz
      rcases mem_insertLe.mp hz with rfl | hz
      · exact h
      · exact hy z hz
    · simp only [insertLe, if_neg h]
      have hxy : le x y = true := by
        rcases htot x y with h1 | h1
        · exact h1
        · exact absurd h1 h
      refine List.Pairwise.cons ?_ (List.Pairwise.cons hy hys)
      intro z hz
      rcases List.mem_cons.mp hz with rfl | hz
      · exact hxy
      · exact htrans x y z hxy (hy z hz)

theorem pairwise_stableSort {le : α → α → Bool}
    (htrans : ∀ a b c, le a b = true → le b c = true → le a c = true)
    (htot : ∀ a b, le a b = true ∨ le b a = true) (l : List α) :
    (stableSort le l).Pairwise (fun a b => le a b = true) := by
  suffices h : ∀ (l acc : List α), acc.Pairwise (fun a b => le a b = true) →
      (l.foldl (fun acc x => insertLe le x acc) acc).Pairwise
        (fun a b => le a b = true) by
    exact h l [] List.Pairwise.nil
  intro l
  induction l with
  | nil => intro acc hacc; simpa using hacc
  | cons x xs ih =>
    intro acc hacc
    exact ih (insertLe le x acc) (pairwise_insertLe htrans htot hacc)

theorem insertLe_append {le : α → α → Bool} {x : α} {l : List α}
    (h : ∀ y ∈ l, le y x = true) : insertLe le x l = l ++ [x] := by
  induction l with
  | nil => simp [insertLe]
  | cons y ys ih =>
    have hy : le y x = true := h y (List.mem_cons_self y ys)
    simp only [insertLe, if_pos hy, List.cons_append, List.cons.injEq, true_and]
    exact ih (fun z hz => h z (List.mem_cons_of_mem y hz))

theorem stableSort_of_sorted {le : α → α → Bool} {l : List α}
    (hl : l.Pairwise (fun a b => le a b = true)) : stableSort le l = l := by
  suffices h : ∀ (l acc : List α), (acc ++ l).Pairwise (fun a b => le a b = true) →
      l.foldl (fun acc x => insertLe le x acc) acc = acc ++ l by
    simpa using h l [] (by simpa using hl)
  intro l
  induction l with
  | nil => intro acc _; simp
  | cons x xs ih =>
    intro acc hacc
    have hle : ∀ y ∈ acc, le y x = true := by
      intro y hy
      exact ((List.pairwise_append.mp hacc).2.2) y hy x (List.mem_cons_self x xs)
    simp only [List.foldl_cons, insertLe_append hle]
    have : ((acc ++ [x]) ++ xs).Pairwise (fun a b => le a b = true) := by
      simpa [List.append_assoc] using hacc
    rw [ih (acc ++ [x]) this]
    simp

/-! ## Lemmas about the insertion-ordered maps -/

theorem lookupTf_nil (t : String) : lookupTf [] t = 0 := rfl

theorem lookupTf_eq_zero_of_find?_eq_none {m : List (String × Nat)} {t : String}
    (h : m.find? (fun p => p.1 == t) = none) : lookupTf m t = 0 := by
  simp [lookupTf, h]

theorem lookupTf_eq_getD (m : List (String × Nat)) (t : String) :
    lookupTf m t = ((m.find? (fun p => p.1 == t)).map Prod.snd).getD 0 := by
  unfold lookupTf
  rcases hfind : m.find? (fun p => p.1 == t) with _ | q <;> simp [hfind]

theorem lookupTf_bumpTf (m : List (String × Nat)) (k t : String) :
    lookupTf (bumpTf m k) t = lookupTf m t + (if t = k then 1 else 0) := by
  unfold bumpTf
  by_cases hany : m.any (fun p => p.1 == k) = true
  · rw [if_pos hany]
    have hcomp : (fun p : String × Nat => p.1 == t) ∘
        (fun p : String × Nat => if p.1 == k then (p.1, p.2 + 1) else p) =
        (fun p : String × Nat => p.1 == t) := by
      funext p
      by_cases h : p.1 = k <;> simp [h]
    rw [lookupTf_eq_getD, lookupTf_eq_getD, List.find?_map, hcomp]
    rcases hfind : m.find? (fun p => p.1 == t) with _ | q
    · by_cases htk : t = k
      · subst htk
        exfalso
        rcases List.any_eq_true.mp hany with ⟨p, hp, hpk⟩
        exact (List.find?_eq_none.mp hfind p hp) hpk
      · simp [hfind, htk]
    · have hq : q.1 = t := by
        have := List.find?_some hfind
        simpa using this
      by_cases htk : t = k
      · subst htk
        simp [hfind, hq]
      · have hqk : ¬ q.1 = k := by rw [hq]; exact htk
        simp [hfind, hqk, htk]
  · rw [if_neg hany]
    rw [lookupTf_eq_getD, lookupTf_eq_getD, List.find?_append]
    rcases hfind : m.find? (fun p => p.1 == t) with _ | q
    · by_cases htk : t = k
      · subst htk
        simp [hfind, List.find?]
      · have hkt : (k == t) = false := by
          simp
          exact fun h => htk h.symm
        simp [hfind, List.find?, hkt, htk]
    · have hq : q.1 = t := by
        have := List.find?_some hfind
        simpa using this
      by_cases htk : t = k
      · subst htk
        exfalso
        apply hany
        refine List.any_eq_true.mpr ⟨q, List.mem_of_find?_eq_some hfind, ?_⟩
        simp [hq]
      · simp [hfind, htk]

theorem lookupTf_foldl_bumpTf (ts : List String) (m : List (String × Nat)) (t : String) :
    lookupTf (ts.foldl bumpTf m) t = lookupTf m t + ts.count t := by
  induction ts generalizing m with
  | nil => simp
  | cons s ss ih =>
    simp only [List.foldl_cons, ih (bumpTf m s), lookupTf_bumpTf, List.count_cons]
    by_cases h : t = s
    · subst h
      simp
      omega
    · have hst : (s == t) = false := by
        simp
        exact fun hc => h hc.symm
      simp [h, hst]

theorem lookupTf_countTokens (text : String) (t : String) :
    lookupTf (countTokens text) t = (tokenize text).count t := by
  unfold countTokens
  have h := lookupTf_foldl_bumpTf (tokenize text) [] t
  rw [lookupTf_nil t] at h
  simpa using h

/-- Key set of a bump: unchanged when the key exists, the key appended
otherwise. -/
theorem keys_bumpTf (m : List (String × Nat)) (k : String) :
    (bumpTf m k).map Prod.fst =
      if m.any (fun p => p.1 == k) then m.map Prod.fst else m.map Prod.fst ++ [k] := by
  unfold bumpTf
  by_cases hany : m.any (fun p => p.1 == k) = true
  · rw [if_pos hany, if_pos hany]
    rw [List.map_map]
    congr 1
    funext p
    by_cases h : p.1 = k <;> simp [h]
  · simp [hany]

theorem mem_keys_foldl_bumpTf {t : String} (ts : List String) (m : List (String × Nat)) :
    t ∈ (ts.foldl bumpTf m).map Prod.fst ↔ t ∈ m.map Prod.fst ∨ t ∈ ts := by
  induction ts generalizing m with
  | nil => simp
  | cons s ss ih =>
    simp only [List.foldl_cons, ih (bumpTf m s), keys_bumpTf, List.mem_cons]
    by_cases hany : m.any (fun p => p.1 == s) = true
    · rw [if_pos hany]
      rcases List.any_eq_true.mp hany with ⟨p, hp, hps⟩
      have hsmem : s ∈ m.map Prod.fst := by
        refine List.mem_map.mpr ⟨p, hp, ?_⟩
        simpa using hps
      constructor
      · rintro (h | h)
        · exact Or.inl h
        · exact Or.inr (Or.inr h)
      · rintro (h | rfl | h)
        · exact Or.inl h
        · exact Or.inl hsmem
        · exact Or.inr h
    · rw [if_neg hany]
      simp only [List.mem_append, List.mem_singleton]
      tauto

theorem mem_keys_countTokens {t : String} (text : String) :
    t ∈ (countTokens text).map Prod.fst ↔ t ∈ tokenize text := by
  simpa [countTokens] using @mem_keys_foldl_bumpTf _ (tokenize text) []

/-! ## Lemmas about the seen set and document frequencies -/

theorem mem_insertNew {s : List String} {k t : String} :
    t ∈ insertNew s k ↔ t ∈ s ∨ t = k := by
  unfold insertNew
  by_cases h : s.contains k = true
  · have hk : k ∈ s := List.elem_iff.mp h
    rw [if_pos h]
    constructor
    · exact Or.inl
    · rintro (ht | rfl)
      · exact ht
      · exact hk
  · rw [if_neg h]
    simp

theorem nodup_insertNew {s : List String} {k : String} (hs : s.Nodup) :
    (insertNew s k).Nodup := by
  unfold insertNew
  by_cases h : s.contains k = true
  · rwa [if_pos h]
  · rw [if_neg h]
    have hk : k ∉ s := fun hmem => h (List.elem_iff.mpr hmem)
    simpa [List.nodup_append] using ⟨hs, hk⟩

theorem mem_foldl_insertNew {t : String} (ks : List String) (s : List String) :
    t ∈ ks.foldl insertNew s ↔ t ∈ s ∨ t ∈ ks := by
  induction ks generalizing s with
  | nil => simp
  | cons k ks ih =>
    simp only [List.foldl_cons, ih (insertNew s k), mem_insertNew, List.mem_cons]
    tauto

theorem nodup_foldl_insertNew (ks : List String) (s : List String) (hs : s.Nodup) :
    (ks.foldl insertNew s).Nodup := by
  induction ks generalizing s with
  | nil => simpa
  | cons k ks ih => exact ih (insertNew s k) (nodup_insertNew hs)

/-- The inner loop over one field's token map inserts exactly its keys. -/
theorem mem_foldl_insertNew_keys {t : String} (q : List (String × Nat)) (s : List String) :
    t ∈ q.foldl (fun s2 q => insertNew s2 q.1) s ↔ t ∈ s ∨ t ∈ q.map Prod.fst := by
  induction q generalizing s with
  | nil => simp
  | cons p ps ih =>
    simp only [List.foldl_cons, ih (insertNew s p.1), mem_insertNew, List.map_cons,
      List.mem_cons]
    tauto

theorem nodup_foldl_insertNew_keys (q : List (String × Nat)) (s : List String)
    (hs : s.Nodup) : (q.foldl (fun s2 q => insertNew s2 q.1) s).Nodup := by
  induction q generalizing s with
  | nil => simpa
  | cons p ps ih => exact ih (insertNew s p.1) (nodup_insertNew hs)

theorem mem_seenTokens {t : String} {d : IndexedDocument} :
    t ∈ seenTokens d ↔ ∃ p ∈ d.tokenFreq, t ∈ p.2.map Prod.fst := by
  unfold seenTokens
  suffices h : ∀ (fs : List (String × List (String × Nat))) (s : List String),
      t ∈ fs.foldl (fun s p => p.2.foldl (fun s2 q => insertNew s2 q.1) s) s ↔
        t ∈ s ∨ ∃ p ∈ fs, t ∈ p.2.map Prod.fst by
    simpa using h d.tokenFreq []
  intro fs
  induction fs with
  | nil => simp
  | cons f fs ih =>
    intro s
    simp only [List.foldl_cons, ih, mem_foldl_insertNew_keys, List.mem_cons]
    constructor
    · rintro ((h | h) | ⟨p, hp, hm⟩)
      · exact Or.inl h
      · exact Or.inr ⟨f, Or.inl rfl, h⟩
      · exact Or.inr ⟨p, Or.inr hp, hm⟩
    · rintro (h | ⟨p, rfl | hp, hm⟩)
      · exact Or.inl (Or.inl h)
      · exact Or.inl (Or.inr hm)
      · exact Or.inr ⟨p, hp, hm⟩

theorem nodup_seenTokens (d : IndexedDocument) : (seenTokens d).Nodup := by
  unfold seenTokens
  suffices h : ∀ (fs : List (String × List (String × Nat))) (s : List String),
      s.Nodup →
      (fs.foldl (fun s p => p.2.foldl (fun s2 q => insertNew s2 q.1) s) s).Nodup by
    exact h d.tokenFreq [] List.nodup_nil
  intro fs
  induction fs with
  | nil => intro s hs; simpa using hs
  | cons f fs ih =>
    intro s hs
    exact ih _ (nodup_foldl_insertNew_keys f.2 s hs)

/-- The document-frequency counter counts, for every token, the documents
whose seen set contains it. -/
theorem lookupTf_buildDocFrequency (docs : List IndexedDocument) (t : String) :
    lookupTf (buildDocFrequency docs) t =
      (docs.filter (fun d => (seenTokens d).contains t)).length := by
  unfold buildDocFrequency
  suffices h : ∀ (docs : List IndexedDocument) (m : List (String × Nat)),
      lookupTf (docs.foldl (fun m d => (seenTokens d).foldl bumpTf m) m) t =
        lookupTf m t + (docs.filter (fun d => (seenTokens d).contains t)).length by
    simpa [lookupTf_nil] using h docs []
  intro docs
  induction docs with
  | nil => simp
  | cons d ds ih =>
    intro m
    simp only [List.foldl_cons, ih]
    rw [lookupTf_foldl_bumpTf]
    by_cases hmem : t ∈ seenTokens d
    · have hcount : (seenTokens d).count t = 1 :=
        List.count_eq_one_of_mem (nodup_seenTokens d) hmem
      simp [List.filter_cons, hmem, hcount]
      omega
    · have hcount : (seenTokens d).count t = 0 := by
        simpa using List.count_eq_zero.mpr hmem
      simp [List.filter_cons, hmem, hcount]

/-! ## Lemmas about the scorer -/

/-- A left fold whose step adds a per-element contribution is the initial
value plus the sum of the contributions. -/
theorem foldl_eq_add_sum {α : Type} (f : ℝ → α → ℝ) (g : α → ℝ)
    (hf : ∀ acc x, f acc x = acc + g x) (l : List α) (init : ℝ) :
    l.foldl f init = init + (l.map g).sum := by
  induction l generalizing init with
  | nil => simp
  | cons x xs ih =>
    simp only [List.foldl_cons, List.map_cons, List.sum_cons, hf]
    rw [ih (init + g x)]
    ring

/-- Summing a function that vanishes where a predicate fails equals
summing it over the filtered list. -/
theorem sum_map_ite_eq_sum_filter {α : Type} (p : α → Prop) [DecidablePred p]
    (g : α → ℝ) (l : List α) :
    (l.map (fun x => if p x then g x else 0)).sum =
      ((l.filter (fun x => decide (p x))).map g).sum := by
  induction l with
  | nil => simp
  | cons x xs ih =>
    by_cases h : p x
    · simp [List.filter_cons, h, ih]
    · simp [List.filter_cons, h, ih]

/-- scoreVal in closed triple-sum form: over all query tokens, all their
candidates, and all fields with a positive frequency for the candidate
token. -/
theorem scoreVal_eq_sum (doc : IndexedDocument) (tcs : List TokenCandidate)
    (built : BuiltIndex) :
    scoreVal doc tcs built =
      (tcs.map (fun tc => (tc.candidates.map (candTerm built doc)).sum)).sum := by
  unfold scoreVal
  have hinner : ∀ (c : Candidate) (acc : ℝ),
      doc.tokenFreq.foldl (fun acc3 p =>
        let freq := lookupTf p.2 c.token
        if freq = 0 then acc3
        else acc3 + (freq : ℝ) * ((fieldWeight p.1 : ℚ) : ℝ) * idf built c.token
          * ((c.weight : ℚ) : ℝ)) acc = acc + candTerm built doc c := by
    intro c acc
    rw [foldl_eq_add_sum _
      (fun p => if lookupTf p.2 c.token = 0 then 0 else fieldTerm built c p)]
    · congr 1
      unfold candTerm
      have : ∀ p : String × List (String × Nat),
          (if lookupTf p.2 c.token = 0 then (0 : ℝ) else fieldTerm built c p) =
            (if 0 < lookupTf p.2 c.token then fieldTerm built c p else 0) := by
        intro p
        rcases Nat.eq_zero_or_pos (lookupTf p.2 c.token) with h | h
        · simp [h]
        · simp [h, Nat.pos_iff_ne_zero.mp h]
      rw [List.map_congr_left (fun p _ => this p)]
      exact sum_map_ite_eq_sum_filter _ _ _
    · intro acc2 p
      dsimp only
      rcases Nat.eq_zero_or_pos (lookupTf p.2 c.token) with h | h
      · simp [h, fieldTerm]
      · simp [Nat.pos_iff_ne_zero.mp h, fieldTerm]
  have hmid : ∀ (tc : TokenCandidate) (acc : ℝ),
      tc.candidates.foldl (fun acc2 c =>
        doc.tokenFreq.foldl (fun acc3 p =>
          let freq := lookupTf p.2 c.token
          if freq = 0 then acc3
          else acc3 + (freq : ℝ) * ((fieldWeight p.1 : ℚ) : ℝ) * idf built c.token
            * ((c.weight : ℚ) : ℝ)) acc2) acc =
        acc + (tc.candidates.map (candTerm built doc)).sum := by
    intro tc acc
    exact foldl_eq_add_sum _ (candTerm built doc) (fun acc c => hinner c acc) _ acc
  rw [foldl_eq_add_sum _ (fun tc => (tc.candidates.map (candTerm built doc)).sum)
    (fun acc tc => hmid tc acc)]
  simp

/-- Every configured or defaulted field weight is positive. -/
theorem fieldWeight_pos (f : String) : 0 < fieldWeight f := by
  unfold fieldWeight
  rcases hfind : FIELDS.find? (fun p => p.1 == f) with _ | p
  · simp [hfind]
  · simp only [hfind]
    have hp := List.mem_of_find?_eq_some hfind
    simp only [FIELDS, List.mem_cons, List.mem_singleton] at hp
    rcases hp with rfl | rfl | rfl | rfl | rfl | rfl | rfl | rfl | rfl | h
    all_goals try norm_num
    simp at h

/-- Every candidate weight produced by the distance table is positive. -/
theorem distWeight_pos (d : Nat) : 0 < distWeight d := by
  unfold distWeight
  split_ifs <;> norm_num

/-- Every candidate kept by fuzzyMatchToken has positive weight. -/
theorem fuzzyMatchToken_weight_pos {tok : String} {df : List (String × Nat)}
    {me k : Nat} {c : Candidate} (hc : c ∈ fuzzyMatchToken tok df me k) :
    0 < c.weight := by
  have hall : c ∈ fuzzyCandidatesAll tok df me := by
    have h1 := List.mem_of_mem_take hc
    exact mem_stableSort.mp h1
  unfold fuzzyCandidatesAll withSynth at hall
  have hbase : ∀ c' ∈ vocabCandidates tok df me, (0 : ℚ) < c'.weight := by
    intro c' hc'
    rcases List.mem_filterMap.mp hc' with ⟨p, _, hp⟩
    dsimp only at hp
    by_cases h : levenshtein tok p.1 ≤ me
    · rw [if_pos h] at hp
      rw [← Option.some.inj hp]
      exact distWeight_pos _
    · rw [if_neg h] at hp
      exact absurd hp (by simp)
  by_cases hany : (vocabCandidates tok df me).any (fun c => c.distance == 0) = true
  · rw [if_pos hany] at hall
    exact hbase c hall
  · rw [if_neg hany] at hall
    rcases List.mem_append.mp hall with h | h
    · exact hbase c h
    · have : c = ⟨tok, 0, 1⟩ := by simpa using h
      rw [this]
      norm_num

/-- Every candidate of buildTokenCandidates has positive weight. -/
theorem buildTokenCandidates_weight_pos {tokens : List String}
    {df : List (String × Nat)} {fz : Bool} {me mc : Nat} {tc : TokenCandidate}
    {c : Candidate} (htc : tc ∈ buildTokenCandidates tokens df fz me mc)
    (hc : c ∈ tc.candidates) : 0 < c.weight := by
  rcases List.mem_map.mp htc with ⟨t, _, rfl⟩
  dsimp at hc
  rcases hfz : fz with _ | _
  · rw [hfz] at hc
    simp at hc
    rw [hc]
    norm_num
  · rw [hfz] at hc
    simp at hc
    exact fuzzyMatchToken_weight_pos hc

/-- The idf factor is never negative. -/
theorem idf_nonneg (built : BuiltIndex) (tok : String) : 0 ≤ idf built tok := by
  unfold idf
  apply Real.log_nonneg
  have h1 : (0 : ℝ) ≤ (built.totalDocuments : ℝ) / (1 + (lookupTf built.docFreq tok : ℝ)) := by
    apply div_nonneg
    · exact Nat.cast_nonneg _
    · positivity
  linarith

/-- The idf factor is positive as soon as the corpus is nonempty. -/
theorem idf_pos (built : BuiltIndex) (tok : String)
    (h : 1 ≤ built.totalDocuments) : 0 < idf built tok := by
  unfold idf
  apply Real.log_pos
  have h1 : (0 : ℝ) < (built.totalDocuments : ℝ) / (1 + (lookupTf built.docFreq tok : ℝ)) := by
    apply div_pos
    · exact_mod_cast Nat.lt_of_lt_of_le Nat.zero_lt_one h
    · positivity
  linarith

/-- A field term is never negative when the candidate weight is not. -/
theorem fieldTerm_nonneg (built : BuiltIndex) (c : Candidate)
    (p : String × List (String × Nat)) (hw : 0 ≤ c.weight) :
    0 ≤ fieldTerm built c p := by
  unfold fieldTerm
  have h1 : (0 : ℝ) ≤ (lookupTf p.2 c.token : ℝ) := Nat.cast_nonneg _
  have h2 : (0 : ℝ) ≤ ((fieldWeight p.1 : ℚ) : ℝ) := by
    exact_mod_cast (fieldWeight_pos p.1).le
  have h3 := idf_nonneg built c.token
  have h4 : (0 : ℝ) ≤ ((c.weight : ℚ) : ℝ) := by exact_mod_cast hw
  positivity

/-- A candidate term is never negative when the candidate weight is not. -/
theorem candTerm_nonneg (built : BuiltIndex) (doc : IndexedDocument)
    (c : Candidate) (hw : 0 ≤ c.weight) : 0 ≤ candTerm built doc c := by
  unfold candTerm
  apply List.sum_nonneg
  intro x hx
  rcases List.mem_map.mp hx with ⟨p, _, rfl⟩
  exact fieldTerm_nonneg built c p hw

/-- The accumulated score is never negative for candidates produced by
buildTokenCandidates. -/
theorem scoreVal_nonneg (doc : IndexedDocument) (tokens : List String)
    (df : List (String × Nat)) (fz : Bool) (me mc : Nat) (built : BuiltIndex) :
    0 ≤ scoreVal doc (buildTokenCandidates tokens df fz me mc) built := by
  rw [scoreVal_eq_sum]
  apply List.sum_nonneg
  intro x hx
  rcases List.mem_map.mp hx with ⟨tc, htc, rfl⟩
  apply List.sum_nonneg
  intro y hy
  rcases List.mem_map.mp hy with ⟨c, hc, rfl⟩
  exact candTerm_nonneg built doc c (buildTokenCandidates_weight_pos htc hc).le

/-! ## Lemmas about searchAdvanced -/

/-- Membership in the scored array: the document is in the corpus, passes
the structural filters, and scoreDocument returned its score. -/
theorem mem_scoredList {built : BuiltIndex} {opts : SearchOptions}
    {doc : IndexedDocument} {s : ℝ} :
    (doc, s) ∈ scoredList built opts ↔
      doc ∈ built.documents ∧ passesFilters opts doc = true ∧
        scoreDocument doc (queryCandidates built opts) built opts.kind = some s := by
  unfold scoredList
  rw [List.mem_filterMap]
  constructor
  · rintro ⟨d, hd, hsome⟩
    by_cases hp : passesFilters opts d = true
    · rw [if_pos hp] at hsome
      rcases hscore : scoreDocument d (queryCandidates built opts) built opts.kind with _ | v
      · rw [hscore] at hsome
        simp at hsome
      · rw [hscore] at hsome
        simp only [Option.map_some'] at hsome
        have h1 : d = doc := congrArg Prod.fst (Option.some.inj hsome)
        have h2 : v = s := congrArg Prod.snd (Option.some.inj hsome)
        subst h1
        subst h2
        exact ⟨hd, hp, hscore⟩
    · rw [if_neg hp] at hsome
      simp at hsome
  · rintro ⟨hd, hp, hscore⟩
    refine ⟨doc, hd, ?_⟩
    rw [if_pos hp, hscore]
    rfl

/-- Every returned hit is built from a member of the scored array. -/
theorem mem_searchAdvanced {built : BuiltIndex} {opts : SearchOptions}
    {h : SearchHit} (hmem : h ∈ searchAdvanced built opts) :
    ∃ p ∈ scoredList built opts, h = mkHit p.1 (snippetTokensOf built opts) p.2 := by
  unfold searchAdvanced at hmem
  rcases List.mem_map.mp hmem with ⟨p, hp, rfl⟩
  have hp1 : p ∈ stableSort scoreLe (scoredList built opts) :=
    List.mem_of_mem_drop (List.mem_of_mem_take hp)
  exact ⟨p, mem_stableSort.mp hp1, rfl⟩

/-- With no query tokens, the candidate list is empty. -/
theorem queryCandidates_of_tokens_nil {built : BuiltIndex} {opts : SearchOptions}
    (h : parseQuery opts.query = []) : queryCandidates built opts = [] := by
  unfold queryCandidates
  rw [h]
  rfl

/-- scoreDocument with no candidates: the kind gate, then score 0. -/
theorem scoreDocument_nil (doc : IndexedDocument) (built : BuiltIndex)
    (kind : Option ResourceKind) :
    scoreDocument doc [] built kind =
      if kindMismatch kind doc then none else some 0 := by
  unfold scoreDocument
  by_cases h : kindMismatch kind doc = true
  · rw [if_pos h, if_pos h]
  · rw [if_neg h, if_neg h]
    have hz : scoreVal doc [] built = 0 := rfl
    simp [hz]

/-- filterMap of a double if-gate is a filter followed by a map. -/
theorem filterMap_if_if {α β : Type} (p q : α → Bool) (g : α → β) (l : List α) :
    (l.filterMap (fun x => if p x then (if q x then none else some (g x)) else none)) =
      ((l.filter (fun x => p x && !q x)).map g) := by
  induction l with
  | nil => rfl
  | cons x xs ih =>
    by_cases hp : p x = true
    · by_cases hq : q x = true
      · simp [List.filterMap_cons, List.filter_cons, hp, hq, ih]
      · simp [List.filterMap_cons, List.filter_cons, hp, hq, ih]
    · simp [List.filterMap_cons, List.filter_cons, hp, ih]

/-- With no query tokens the scored array is exactly the filtered corpus,
every document scored 0. -/
theorem scoredList_of_tokens_nil (built : BuiltIndex) (opts : SearchOptions)
    (h : parseQuery opts.query = []) :
    scoredList built opts =
      (built.documents.filter
        (fun d => passesFilters opts d && !kindMismatch opts.kind d)).map
        (fun d => (d, (0 : ℝ))) := by
  unfold scoredList
  rw [queryCandidates_of_tokens_nil h]
  rw [← filterMap_if_if (fun d => passesFilters opts d)
    (fun d => kindMismatch opts.kind d) (fun d => (d, (0 : ℝ)))]
  congr 1
  funext d
  rw [scoreDocument_nil]
  by_cases hp : passesFilters opts d = true
  · by_cases hk : kindMismatch opts.kind d = true
    · simp [hp, hk]
    · simp [hp, hk]
  · simp [hp]

theorem pairwise_of_true {α : Type _} {R : α → α → Prop} (h : ∀ a b, R a b)
    (l : List α) : l.Pairwise R := by
  induction l with
  | nil => exact List.Pairwise.nil
  | cons x xs ih => exact List.Pairwise.cons (fun y _ => h x y) ih

/-- The stable sort leaves a list of equal scores unchanged. -/
theorem stableSort_const_score (l : List IndexedDocument) :
    stableSort scoreLe (l.map (fun d => (d, (0 : ℝ)))) =
      l.map (fun d => (d, (0 : ℝ))) := by
  apply stableSort_of_sorted
  rw [List.pairwise_map]
  refine pairwise_of_true (fun a b => ?_) l
  unfold scoreLe
  simp

/-- With no query tokens, searchAdvanced returns the page
[offset, offset + limit) of the filtered corpus in corpus order, every
hit carrying score 0 and an empty snippet-token pool. -/
theorem searchAdvanced_of_tokens_nil (built : BuiltIndex) (opts : SearchOptions)
    (h : parseQuery opts.query = []) :
    searchAdvanced built opts =
      ((((built.documents.filter
          (fun d => passesFilters opts d && !kindMismatch opts.kind d)).drop
            (opts.offset.getD 0)).take (opts.limit.getD 10)).map
        (fun d => mkHit d [] 0)) := by
  unfold searchAdvanced
  rw [scoredList_of_tokens_nil built opts h, stableSort_const_score]
  have hsnip : snippetTokensOf built opts = [] := by
    unfold snippetTokensOf
    rw [queryCandidates_of_tokens_nil h]
    rfl
  rw [hsnip, ← List.map_drop, ← List.map_take, List.map_map]
  rfl

/-- The number of returned hits is the page size clipped to what remains
of the scored array past the offset. -/
theorem length_searchAdvanced (built : BuiltIndex) (opts : SearchOptions) :
    (searchAdvanced built opts).length =
      min (opts.limit.getD 10)
        ((scoredList built opts).length - opts.offset.getD 0) := by
  unfold searchAdvanced
  rw [List.length_map, List.length_take, List.length_drop, length_stableSort]

/-! ## Claims -/

/-- Claim C4: for every document and every set of query-token candidate
sets, the accumulated score equals the sum, over all query tokens, all
their candidates (token, weight), and all fields where the candidate
token has frequency f greater than 0, of
f x fieldWeight(field) x ln(1 + totalDocuments / (1 + docFreq[token])) x
weight, where fieldWeight is the fixed table title 5, slug 4, tags 3.5,
headings 3, section 2, events 2, actions 2, scopes 2, content 1.5. -/
theorem claim_C4 (doc : IndexedDocument) (tcs : List TokenCandidate)
    (built : BuiltIndex) :
    scoreVal doc tcs built =
      (tcs.map (fun tc =>
        (tc.candidates.map (fun c =>
          ((doc.tokenFreq.filter (fun p => decide (0 < lookupTf p.2 c.token))).map
            (fun p =>
              (lookupTf p.2 c.token : ℝ) * ((fieldWeight p.1 : ℚ) : ℝ) *
                Real.log (1 + (built.totalDocuments : ℝ) /
                  (1 + (lookupTf built.docFreq c.token : ℝ))) *
                ((c.weight : ℚ) : ℝ))).sum)).sum)).sum
    ∧ fieldWeight "title" = 5 ∧ fieldWeight "slug" = 4 ∧ fieldWeight "tags" = 7/2
    ∧ fieldWeight "headings" = 3 ∧ fieldWeight "section" = 2
    ∧ fieldWeight "events" = 2 ∧ fieldWeight "actions" = 2
    ∧ fieldWeight "scopes" = 2 ∧ fieldWeight "content" = 3/2 := by
  refine ⟨?_, rfl, rfl, rfl, rfl, rfl, rfl, rfl, rfl, rfl⟩
  rw [scoreVal_eq_sum]
  unfold candTerm fieldTerm idf
  rfl

/-- Claim C6: in the index built from any record sequence, docFreq[t]
counts the distinct documents in which t appears in at least one field
(once per document, a set union over fields), and totalDocuments is the
number of input records. -/
theorem claim_C6 (records : List RecordItem) (t : String) :
    lookupTf (buildIndex records).docFreq t =
      (records.filter (fun r =>
        FIELDS.any (fun f => (tokenize (extractField f.1 r)).contains t))).length
    ∧ (buildIndex records).totalDocuments = records.length := by
  constructor
  · show lookupTf (buildDocFrequency (records.map indexRecord)) t = _
    rw [lookupTf_buildDocFrequency, List.filter_map, List.length_map]
    congr 1
    apply List.filter_congr
    intro r _
    rw [Bool.eq_iff_iff]
    simp only [Function.comp_apply]
    rw [List.elem_iff, mem_seenTokens]
    constructor
    · rintro ⟨p, hp, hm⟩
      rcases List.mem_map.mp hp with ⟨f, hf, rfl⟩
      have hmem := (mem_keys_countTokens (extractField f.1 r)).mp hm
      exact List.any_eq_true.mpr ⟨f, hf, List.elem_iff.mpr hmem⟩
    · intro hany
      rcases List.any_eq_true.mp hany with ⟨f, hf, hc⟩
      refine ⟨(f.1, countTokens (extractField f.1 r)),
        List.mem_map.mpr ⟨f, hf, rfl⟩, ?_⟩
      exact (mem_keys_countTokens (extractField f.1 r)).mpr (List.elem_iff.mp hc)
  · show (records.map indexRecord).length = records.length
    exact List.length_map _ _

/-- Claim C9: for every index, options and page size k of at least 1, the
page [0, k) concatenated with the page [k, 2k) is exactly the page
[0, 2k). -/
theorem claim_C9 (built : BuiltIndex) (q : String) (kind : Option ResourceKind)
    (fz : Option Bool) (me mc : Option Nat) (tags subs : Option (List String))
    (k : Nat) (hk : 1 ≤ k) :
    searchAdvanced built ⟨q, kind, some k, some 0, fz, me, mc, tags, subs⟩ ++
      searchAdvanced built ⟨q, kind, some k, some k, fz, me, mc, tags, subs⟩ =
    searchAdvanced built ⟨q, kind, some (2 * k), some 0, fz, me, mc, tags, subs⟩ := by
  have h1 : ∀ (S : List (IndexedDocument × ℝ)) (f : IndexedDocument × ℝ → SearchHit),
      ((S.drop 0).take k).map f ++ ((S.drop k).take k).map f =
        ((S.drop 0).take (2 * k)).map f := by
    intro S f
    rw [List.drop_zero, ← List.map_append, two_mul, List.take_add]
  exact h1 _ _

/-- Claim C9 witness: page size 1 on the single-task corpus. -/
theorem claim_C9_witness :
    1 ≤ 1 ∧
    (searchAdvanced exBuiltT ⟨"the", none, some 1, some 0, none, none, none, none, none⟩ ++
      searchAdvanced exBuiltT ⟨"the", none, some 1, some 1, none, none, none, none, none⟩ =
    searchAdvanced exBuiltT ⟨"the", none, some (2 * 1), some 0, none, none, none, none, none⟩) :=
  ⟨le_refl 1, claim_C9 exBuiltT "the" none none none none none none 1 (le_refl 1)⟩

/-- Claim C3: a query whose tokenization is empty matches every document
passing the structural filters with score exactly 0, respecting offset
and limit, without failing; with at least one token, zero-score documents
are excluded from the results. -/
theorem claim_C3 (built : BuiltIndex) (opts : SearchOptions) :
    (parseQuery opts.query = [] →
      searchAdvanced built opts =
        ((((built.documents.filter
            (fun d => passesFilters opts d && !kindMismatch opts.kind d)).drop
              (opts.offset.getD 0)).take (opts.limit.getD 10)).map
          (fun d => mkHit d [] 0)))
    ∧ (parseQuery opts.query ≠ [] →
        ∀ h ∈ searchAdvanced built opts, h.score ≠ 0) := by
  constructor
  · exact searchAdvanced_of_tokens_nil built opts
  · intro hne h hmem h0
    rcases mem_searchAdvanced hmem with ⟨p, hp, rfl⟩
    obtain ⟨_, _, hscore⟩ := mem_scoredList.mp hp
    unfold scoreDocument at hscore
    by_cases hkm : kindMismatch opts.kind p.1 = true
    · rw [if_pos hkm] at hscore
      exact absurd hscore (by simp)
    · rw [if_neg hkm] at hscore
      by_cases hc : 0 < (queryCandidates built opts).length ∧
          scoreVal p.1 (queryCandidates built opts) built = 0
      · rw [if_pos hc] at hscore
        exact absurd hscore (by simp)
      · rw [if_neg hc] at hscore
        apply hc
        have hlen : 0 < (queryCandidates built opts).length := by
          unfold queryCandidates buildTokenCandidates
          rw [List.length_map]
          exact List.length_pos.mpr hne
        refine ⟨hlen, ?_⟩
        have hps : scoreVal p.1 (queryCandidates built opts) built = p.2 :=
          Option.some.inj hscore
        rw [hps]
        exact h0

/-- Claim C3 witness: the pure stop-word query on the single-task
corpus. -/
theorem claim_C3_witness :
    parseQuery exOptsStop.query = [] ∧
    searchAdvanced exBuiltT exOptsStop =
      ((((exBuiltT.documents.filter
          (fun d => passesFilters exOptsStop d && !kindMismatch exOptsStop.kind d)).drop
            (exOptsStop.offset.getD 0)).take (exOptsStop.limit.getD 10)).map
        (fun d => mkHit d [] 0)) :=
  ⟨by decide, (claim_C3 exBuiltT exOptsStop).1 (by decide)⟩

/-- Claim C7: with a non-empty tags option, every returned hit comes from
a document that carries every requested tag, compared case-insensitively
(AND semantics); a document missing a tag never appears, whatever its
score. -/
theorem claim_C7 (built : BuiltIndex) (opts : SearchOptions) (ts : List String)
    (h : SearchHit) (hts : opts.tags = some ts) (hne : ts ≠ [])
    (hmem : h ∈ searchAdvanced built opts) :
    ∃ doc ∈ built.documents, doc.id = h.id ∧ doc.tags = h.tags ∧
      ∀ t ∈ ts,
        ((if doc.raw.kind == ResourceKind.task then doc.raw.tags else doc.tags).map
          toLowerStr).contains (toLowerStr t) = true := by
  rcases mem_searchAdvanced hmem with ⟨p, hp, rfl⟩
  obtain ⟨hd, hpass, _⟩ := mem_scoredList.mp hp
  refine ⟨p.1, hd, rfl, rfl, ?_⟩
  unfold passesFilters at hpass
  rw [hts] at hpass
  rw [Bool.and_eq_true] at hpass
  have h1 := hpass.1
  dsimp only at h1
  have hlen : 0 < ts.length := List.length_pos.mpr hne
  rw [if_pos hlen] at h1
  intro t ht
  exact List.all_eq_true.mp h1 t ht

/-- Evaluation of the browse-all query on the tagged corpus. -/
theorem searchTag_eval :
    searchAdvanced exBuiltTag exOptsTag = [mkHit (indexRecord exTagRec) [] 0] := by
  rw [searchAdvanced_of_tokens_nil exBuiltTag exOptsTag (by decide)]
  rfl

/-- Claim C7 witness: tag ALPHA requested in upper case against a
document tagged Alpha. -/
theorem claim_C7_witness :
    exOptsTag.tags = some ["ALPHA"] ∧ (["ALPHA"] : List String) ≠ [] ∧
    (∃ doc ∈ exBuiltTag.documents,
      doc.id = (mkHit (indexRecord exTagRec) [] 0).id ∧
      doc.tags = (mkHit (indexRecord exTagRec) [] 0).tags ∧
      ∀ t ∈ (["ALPHA"] : List String),
        ((if doc.raw.kind == ResourceKind.task then doc.raw.tags else doc.tags).map
          toLowerStr).contains (toLowerStr t) = true) :=
  ⟨rfl, by decide,
    claim_C7 exBuiltTag exOptsTag ["ALPHA"] (mkHit (indexRecord exTagRec) [] 0)
      rfl (by decide)
      (by rw [searchTag_eval]; exact List.mem_singleton.mpr rfl)⟩

/-- Claim C10: a non-empty subscriptions filter only constrains task
documents. A doc-kind document is in the scored set with the filter iff
it is without it; a task-kind document additionally requires every
requested substring to occur, case-insensitively, in its space-joined
events followed by its subscriptions template. -/
theorem claim_C10 (built : BuiltIndex) (opts : SearchOptions)
    (subs : List String) (doc : IndexedDocument) (s : ℝ)
    (hsubs : opts.subscriptions = some subs) (hne : subs ≠ []) :
    (doc.raw.kind = ResourceKind.doc →
      ((doc, s) ∈ scoredList built opts ↔
        (doc, s) ∈ scoredList built (setSubs opts none)))
    ∧ (doc.raw.kind = ResourceKind.task →
      ((doc, s) ∈ scoredList built opts ↔
        (subs.all (fun sub =>
          strIncludes
            (String.intercalate " " (doc.raw.events.map toLowerStr) ++ " " ++
              toLowerStr (doc.raw.subscriptions_template.getD ""))
            (toLowerStr sub)) = true
        ∧ (doc, s) ∈ scoredList built (setSubs opts none)))) := by
  have hqc : queryCandidates built (setSubs opts none) = queryCandidates built opts :=
    rfl
  have hk : (setSubs opts none).kind = opts.kind := rfl
  have hlen : 0 < subs.length := List.length_pos.mpr hne
  constructor
  · intro hd
    have hbeq : (doc.raw.kind == ResourceKind.task) = false := by
      rw [hd]
      rfl
    have hpf : passesFilters opts doc = passesFilters (setSubs opts none) doc := by
      unfold passesFilters setSubs
      rw [hsubs]
      dsimp only
      rw [hbeq]
      simp
    rw [mem_scoredList, mem_scoredList, hqc, hk, hpf]
  · intro hd
    have hbeq : (doc.raw.kind == ResourceKind.task) = true := by
      rw [hd]
      rfl
    rw [mem_scoredList, mem_scoredList, hqc, hk]
    unfold passesFilters setSubs
    rw [hsubs]
    dsimp only
    rw [hbeq]
    rw [if_pos (show (decide (0 < subs.length) && true) = true by simp [hlen])]
    simp only [Bool.and_true, Bool.and_eq_true]
    tauto

/-- Claim C10 witness: the tagged doc-kind corpus with a subscriptions
filter requesting the substring x. -/
theorem claim_C10_witness :
    exOptsSubs.subscriptions = some ["x"] ∧ (["x"] : List String) ≠ [] ∧
    ((indexRecord (RecordItem.doc "d1" "" "" none [] [] "aaaa")).raw.kind =
        ResourceKind.doc →
      (((indexRecord (RecordItem.doc "d1" "" "" none [] [] "aaaa")), (0 : ℝ)) ∈
          scoredList exBuiltA exOptsSubs ↔
        ((indexRecord (RecordItem.doc "d1" "" "" none [] [] "aaaa")), (0 : ℝ)) ∈
          scoredList exBuiltA (setSubs exOptsSubs none))) :=
  ⟨rfl, by decide,
    (claim_C10 exBuiltA exOptsSubs ["x"]
      (indexRecord (RecordItem.doc "d1" "" "" none [] [] "aaaa")) 0 rfl
      (by decide)).1⟩

/-- Claim C1 counterexample: on a one-task corpus, a stop-word query with
limit 1 and offset 0 fills the page exactly (one scored document), so the
handler emits nextOffset even though no results remain beyond the page;
presence of nextOffset is therefore not equivalent to
sorted length strictly greater than offset + limit. -/
theorem claim_C1_counterexample :
    ¬ ((searchTasksNextOffset exBuiltT exInputC1).isSome = true ↔
        exInputC1.offset + exInputC1.limit <
          (scoredList exBuiltT (searchTasksOpts exInputC1)).length) := by
  have hnil : parseQuery (searchTasksOpts exInputC1).query = [] := by decide
  have hlist : scoredList exBuiltT (searchTasksOpts exInputC1) =
      [(indexRecord exTaskRec, 0)] := by
    rw [scoredList_of_tokens_nil _ _ hnil]
    rfl
  have hlen : (searchAdvanced exBuiltT (searchTasksOpts exInputC1)).length = 1 := by
    rw [length_searchAdvanced, hlist]
    rfl
  have hno : searchTasksNextOffset exBuiltT exInputC1 = some 1 := by
    unfold searchTasksNextOffset
    rw [hlen]
    rfl
  intro hiff
  have h1 := hiff.mp (by rw [hno]; rfl)
  rw [hlist] at h1
  norm_num [exInputC1] at h1

/-- Claim C1, amended: nextOffset is present iff the page is full, that
is, iff the number of filtered scored documents is at least
offset + limit (not strictly greater); when present it equals
offset + limit. -/
theorem claim_C1 (built : BuiltIndex) (i : SearchTasksInput) (h : 1 ≤ i.limit) :
    searchTasksNextOffset built i =
      if i.offset + i.limit ≤ (scoredList built (searchTasksOpts i)).length
      then some (i.offset + i.limit) else none := by
  unfold searchTasksNextOffset
  rw [length_searchAdvanced]
  have hl : (searchTasksOpts i).limit.getD 10 = i.limit := rfl
  have ho : (searchTasksOpts i).offset.getD 0 = i.offset := rfl
  rw [hl, ho]
  by_cases hc : i.offset + i.limit ≤ (scoredList built (searchTasksOpts i)).length
  · rw [if_pos hc, if_pos]
    omega
  · rw [if_neg hc, if_neg]
    omega

/-- Claim C1 witness: the amended statement at the one-task corpus. -/
theorem claim_C1_witness :
    1 ≤ exInputC1.limit ∧
    searchTasksNextOffset exBuiltT exInputC1 =
      (if exInputC1.offset + exInputC1.limit ≤
          (scoredList exBuiltT (searchTasksOpts exInputC1)).length
       then some (exInputC1.offset + exInputC1.limit) else none) :=
  ⟨by decide, claim_C1 exBuiltT exInputC1 (by decide)⟩

/-! ## Lemmas about the fuzzy expander -/

theorem mem_vocabCandidates {t : String} {df : List (String × Nat)} {me : Nat}
    {c : Candidate} :
    c ∈ vocabCandidates t df me ↔
      ∃ v ∈ df.map Prod.fst, levenshtein t v ≤ me ∧
        c = ⟨v, levenshtein t v, distWeight (levenshtein t v)⟩ := by
  unfold vocabCandidates
  rw [List.mem_filterMap]
  constructor
  · rintro ⟨p, hp, hsome⟩
    dsimp only at hsome
    by_cases h : levenshtein t p.1 ≤ me
    · rw [if_pos h] at hsome
      exact ⟨p.1, List.mem_map.mpr ⟨p, hp, rfl⟩, h, (Option.some.inj hsome).symm⟩
    · rw [if_neg h] at hsome
      exact absurd hsome (by simp)
  · rintro ⟨v, hv, hle, rfl⟩
    rcases List.mem_map.mp hv with ⟨p, hp, rfl⟩
    refine ⟨p, hp, ?_⟩
    dsimp only
    rw [if_pos hle]

theorem vocab_any_d0_iff {t : String} {df : List (String × Nat)} {me : Nat} :
    (vocabCandidates t df me).any (fun c => c.distance == 0) = true ↔
      ∃ v ∈ df.map Prod.fst, levenshtein t v = 0 := by
  rw [List.any_eq_true]
  constructor
  · rintro ⟨c, hc, hd0⟩
    rcases mem_vocabCandidates.mp hc with ⟨v, hv, _, rfl⟩
    refine ⟨v, hv, ?_⟩
    simpa using hd0
  · rintro ⟨v, hv, h0⟩
    refine ⟨⟨v, levenshtein t v, distWeight (levenshtein t v)⟩,
      mem_vocabCandidates.mpr ⟨v, hv, by omega, rfl⟩, ?_⟩
    simpa using h0

theorem mem_fuzzyCandidatesAll {t : String} {df : List (String × Nat)} {me : Nat}
    {c : Candidate} :
    c ∈ fuzzyCandidatesAll t df me ↔
      (∃ v ∈ df.map Prod.fst, levenshtein t v ≤ me ∧
        c = ⟨v, levenshtein t v, distWeight (levenshtein t v)⟩) ∨
      ((¬ ∃ v ∈ df.map Prod.fst, levenshtein t v = 0) ∧ c = ⟨t, 0, 1⟩) := by
  unfold fuzzyCandidatesAll withSynth
  by_cases hany : (vocabCandidates t df me).any (fun c => c.distance == 0) = true
  · rw [if_pos hany]
    rw [mem_vocabCandidates]
    constructor
    · exact Or.inl
    · rintro (h | ⟨hno, rfl⟩)
      · exact h
      · exact absurd (vocab_any_d0_iff.mp hany) hno
  · rw [if_neg hany]
    rw [List.mem_append, mem_vocabCandidates, List.mem_singleton]
    have hno : ¬ ∃ v ∈ df.map Prod.fst, levenshtein t v = 0 :=
      fun h => hany (vocab_any_d0_iff.mpr h)
    constructor
    · rintro (h | rfl)
      · exact Or.inl h
      · exact Or.inr ⟨hno, rfl⟩
    · rintro (h | ⟨_, rfl⟩)
      · exact Or.inl h
      · exact Or.inr rfl

theorem candLe_iff (df : List (String × Nat)) (a b : Candidate) :
    candLe df a b = true ↔
      (a.distance < b.distance ∨
        (a.distance = b.distance ∧ lookupTf df b.token ≤ lookupTf df a.token)) := by
  unfold candLe
  by_cases h : a.distance = b.distance
  · rw [if_neg (fun hc => hc h)]
    simp [h]
  · rw [if_pos h]
    simp [h]

theorem candLe_trans (df : List (String × Nat)) :
    ∀ a b c, candLe df a b = true → candLe df b c = true →
      candLe df a c = true := by
  intro a b c hab hbc
  rw [candLe_iff] at hab hbc ⊢
  rcases hab with h1 | ⟨h1, h1w⟩ <;> rcases hbc with h2 | ⟨h2, h2w⟩
  · exact Or.inl (h1.trans h2)
  · exact Or.inl (h2 ▸ h1)
  · exact Or.inl (h1 ▸ h2)
  · exact Or.inr ⟨h1.trans h2, le_trans h2w h1w⟩

theorem candLe_total (df : List (String × Nat)) :
    ∀ a b, candLe df a b = true ∨ candLe df b a = true := by
  intro a b
  rw [candLe_iff, candLe_iff]
  rcases Nat.lt_trichotomy a.distance b.distance with h | h | h
  · exact Or.inl (Or.inl h)
  · rcases Nat.le_total (lookupTf df b.token) (lookupTf df a.token) with hw | hw
    · exact Or.inl (Or.inr ⟨h, hw⟩)
    · exact Or.inr (Or.inr ⟨h.symm, hw⟩)
  · exact Or.inr (Or.inl h)

/-- Claim C5: fuzzyMatchToken is the truncation to maxCandidates of a
full list holding exactly the vocabulary tokens within the edit budget
(weight 1 at distance 0, 0.6 at distance 1, 0.3 beyond), plus the
synthesized exact entry when no distance-0 vocabulary match exists,
sorted ascending by distance with ties broken by descending document
frequency; with fuzzy matching disabled the candidate set is exactly the
literal singleton. -/
theorem claim_C5 (t : String) (df : List (String × Nat)) (me k : Nat)
    (hk : 1 ≤ k) :
    (∃ full : List Candidate,
      fuzzyMatchToken t df me k = full.take k ∧
      (∀ c : Candidate, c ∈ full ↔
        ((∃ v ∈ df.map Prod.fst, levenshtein t v ≤ me ∧
            c = ⟨v, levenshtein t v, distWeight (levenshtein t v)⟩) ∨
          ((¬ ∃ v ∈ df.map Prod.fst, levenshtein t v = 0) ∧ c = ⟨t, 0, 1⟩))) ∧
      full.Pairwise (fun a b =>
        a.distance < b.distance ∨
          (a.distance = b.distance ∧
            lookupTf df b.token ≤ lookupTf df a.token)))
    ∧ distWeight 0 = 1 ∧ distWeight 1 = 3/5
    ∧ (∀ d, 2 ≤ d → distWeight d = 3/10)
    ∧ (∀ (tokens : List String) (me' mc' : Nat),
        buildTokenCandidates tokens df false me' mc' =
          tokens.map (fun tok => ⟨tok, [⟨tok, 0, 1⟩]⟩)) := by
  refine ⟨⟨stableSort (candLe df) (fuzzyCandidatesAll t df me), rfl, ?_, ?_⟩,
    rfl, rfl, ?_, fun tokens me' mc' => rfl⟩
  · intro c
    rw [mem_stableSort]
    exact mem_fuzzyCandidatesAll
  · have hp := pairwise_stableSort (candLe_trans df) (candLe_total df)
      (fuzzyCandidatesAll t df me)
    exact hp.imp (fun hab => (candLe_iff df _ _).mp hab)
  · intro d hd
    unfold distWeight
    rw [if_neg (by omega), if_neg (by omega)]

/-- Claim C5 witness: the empty vocabulary with budget 1. -/
theorem claim_C5_witness :
    1 ≤ 1 ∧
    ((∃ full : List Candidate,
      fuzzyMatchToken "x" [] 1 1 = full.take 1 ∧
      (∀ c : Candidate, c ∈ full ↔
        ((∃ v ∈ ([] : List (String × Nat)).map Prod.fst,
            levenshtein "x" v ≤ 1 ∧
            c = ⟨v, levenshtein "x" v, distWeight (levenshtein "x" v)⟩) ∨
          ((¬ ∃ v ∈ ([] : List (String × Nat)).map Prod.fst,
              levenshtein "x" v = 0) ∧ c = ⟨"x", 0, 1⟩))) ∧
      full.Pairwise (fun a b =>
        a.distance < b.distance ∨
          (a.distance = b.distance ∧
            lookupTf [] b.token ≤ lookupTf [] a.token)))
    ∧ distWeight 0 = 1 ∧ distWeight 1 = 3/5
    ∧ (∀ d, 2 ≤ d → distWeight d = 3/10)
    ∧ (∀ (tokens : List String) (me' mc' : Nat),
        buildTokenCandidates tokens [] false me' mc' =
          tokens.map (fun tok => ⟨tok, [⟨tok, 0, 1⟩]⟩))) :=
  ⟨le_refl 1, claim_C5 "x" [] 1 1 (le_refl 1)⟩

/-! ## Lemmas about the monotonicity of the scorer -/

theorem lookupTf_doubled (fm : List (String × Nat)) (tk t : String) :
    lookupTf (fm.map (fun q => if q.1 = tk then (q.1, 2 * q.2) else q)) t =
      if t = tk then 2 * lookupTf fm t else lookupTf fm t := by
  have hcomp : (fun q : String × Nat => q.1 == t) ∘
      (fun q : String × Nat => if q.1 = tk then (q.1, 2 * q.2) else q) =
      (fun q : String × Nat => q.1 == t) := by
    funext q
    by_cases h : q.1 = tk <;> simp [h]
  rw [lookupTf_eq_getD, lookupTf_eq_getD, List.find?_map, hcomp]
  rcases hfind : fm.find? (fun q => q.1 == t) with _ | q
  · simp [hfind]
  · have hq : q.1 = t := by simpa using List.find?_some hfind
    by_cases htk : t = tk
    · subst htk
      simp [hfind, hq]
    · have hqk : ¬ q.1 = tk := by rw [hq]; exact htk
      simp [hfind, hqk, htk]

theorem lookupTf_dblF (field tk : String) (p : String × List (String × Nat))
    (t : String) :
    lookupTf (dblF field tk p).2 t =
      if p.1 = field ∧ t = tk then 2 * lookupTf p.2 t else lookupTf p.2 t := by
  unfold dblF
  by_cases hp : p.1 = field
  · rw [if_pos hp]
    dsimp only
    rw [lookupTf_doubled]
    by_cases ht : t = tk
    · rw [if_pos ht, if_pos ⟨hp, ht⟩]
    · rw [if_neg ht, if_neg (fun hc => ht hc.2)]
  · rw [if_neg hp, if_neg (fun hc => hp hc.1)]

theorem dblF_fst (field tk : String) (p : String × List (String × Nat)) :
    (dblF field tk p).1 = p.1 := by
  unfold dblF
  by_cases hp : p.1 = field <;> simp [hp]

/-- The candidate term over the doubled document, rewritten as a sum over
the original filtered field list. -/
theorem candTerm_doubleFreq (built : BuiltIndex) (doc : IndexedDocument)
    (fname tk : String) (c' : Candidate) :
    candTerm built (doubleFreq doc fname tk) c' =
      ((doc.tokenFreq.filter (fun p => decide (0 < lookupTf p.2 c'.token))).map
        (fun p => fieldTerm built c' (dblF fname tk p))).sum := by
  unfold candTerm
  have hdoc : (doubleFreq doc fname tk).tokenFreq = doc.tokenFreq.map (dblF fname tk) :=
    rfl
  rw [hdoc, List.filter_map, List.map_map]
  congr 2
  apply List.filter_congr
  intro p _
  simp only [Function.comp_apply]
  rw [lookupTf_dblF]
  by_cases h : p.1 = fname ∧ c'.token = tk
  · rw [if_pos h]
    have hiff : (0 < 2 * lookupTf p.2 c'.token) ↔ (0 < lookupTf p.2 c'.token) := by
      omega
    simp [hiff]
  · rw [if_neg h]

/-- Doubling never decreases a field term when the candidate weight is
not negative. -/
theorem fieldTerm_dblF_le (built : BuiltIndex) (fname tk : String)
    (c' : Candidate) (hw : 0 ≤ c'.weight) (p : String × List (String × Nat)) :
    fieldTerm built c' p ≤ fieldTerm built c' (dblF fname tk p) := by
  unfold fieldTerm
  rw [dblF_fst, lookupTf_dblF]
  by_cases h : p.1 = fname ∧ c'.token = tk
  · rw [if_pos h]
    have h1 : (0 : ℝ) ≤ (lookupTf p.2 c'.token : ℝ) * ((fieldWeight p.1 : ℚ) : ℝ)
        * idf built c'.token * ((c'.weight : ℚ) : ℝ) :=
      fieldTerm_nonneg built c' p hw
    push_cast
    nlinarith [h1]
  · rw [if_neg h]

/-- Doubling strictly increases the matched field term when everything in
the product is positive. -/
theorem fieldTerm_dblF_lt (built : BuiltIndex) (fname : String) (c' : Candidate)
    (hw : 0 < c'.weight) (p : String × List (String × Nat)) (hp : p.1 = fname)
    (hfreq : 0 < lookupTf p.2 c'.token) (hN : 1 ≤ built.totalDocuments) :
    fieldTerm built c' p < fieldTerm built c' (dblF fname c'.token p) := by
  unfold fieldTerm
  rw [dblF_fst, lookupTf_dblF, if_pos ⟨hp, rfl⟩]
  have h1 : (0 : ℝ) < (lookupTf p.2 c'.token : ℝ) := by exact_mod_cast hfreq
  have h2 : (0 : ℝ) < ((fieldWeight p.1 : ℚ) : ℝ) := by
    exact_mod_cast fieldWeight_pos p.1
  have h3 : (0 : ℝ) < idf built c'.token := idf_pos built c'.token hN
  have h4 : (0 : ℝ) < ((c'.weight : ℚ) : ℝ) := by exact_mod_cast hw
  push_cast
  nlinarith [mul_pos (mul_pos (mul_pos h1 h2) h3) h4]

/-- Claim C8: for a document matched by some candidate token in some
field, doubling the occurrence count of that token in that one field
(everything else unchanged) strictly increases the document's score. -/
theorem claim_C8 (built : BuiltIndex) (tokens : List String) (fz : Bool)
    (me mc : Nat) (doc : IndexedDocument) (fname : String)
    (fm : List (String × Nat)) (tc : TokenCandidate) (c : Candidate)
    (htc : tc ∈ buildTokenCandidates tokens built.docFreq fz me mc)
    (hc : c ∈ tc.candidates)
    (hfm : (fname, fm) ∈ doc.tokenFreq) (hfreq : 0 < lookupTf fm c.token)
    (hN : 1 ≤ built.totalDocuments) :
    scoreVal doc (buildTokenCandidates tokens built.docFreq fz me mc) built <
      scoreVal (doubleFreq doc fname c.token)
        (buildTokenCandidates tokens built.docFreq fz me mc) built := by
  rw [scoreVal_eq_sum, scoreVal_eq_sum]
  have hcand_le : ∀ tc' ∈ buildTokenCandidates tokens built.docFreq fz me mc,
      ∀ c' ∈ tc'.candidates,
      candTerm built doc c' ≤ candTerm built (doubleFreq doc fname c.token) c' := by
    intro tc' htc' c' hc'
    rw [candTerm_doubleFreq]
    unfold candTerm
    apply List.sum_le_sum
    intro p _
    exact fieldTerm_dblF_le built fname c.token c'
      (buildTokenCandidates_weight_pos htc' hc').le p
  have hcand_lt : candTerm built doc c < candTerm built (doubleFreq doc fname c.token) c := by
    rw [candTerm_doubleFreq]
    unfold candTerm
    apply List.sum_lt_sum
    · intro p _
      exact fieldTerm_dblF_le built fname c.token c
        (buildTokenCandidates_weight_pos htc hc).le p
    · refine ⟨(fname, fm), ?_, ?_⟩
      · rw [List.mem_filter]
        exact ⟨hfm, by simpa using hfreq⟩
      · exact fieldTerm_dblF_lt built fname c
          (buildTokenCandidates_weight_pos htc hc) (fname, fm) rfl hfreq hN
  apply List.sum_lt_sum
  · intro tc' htc'
    apply List.sum_le_sum
    intro c' hc'
    exact hcand_le tc' htc' c' hc'
  · refine ⟨tc, htc, ?_⟩
    apply List.sum_lt_sum
    · intro c' hc'
      exact hcand_le tc htc c' hc'
    · exact ⟨c, hc, hcand_lt⟩

/-- Claim C8 witness: a single-field document containing the token xx
once, with the literal singleton candidate set. -/
theorem claim_C8_witness :
    (⟨"xx", [⟨"xx", 0, 1⟩]⟩ : TokenCandidate) ∈
        buildTokenCandidates ["xx"] exBuiltC8.docFreq false 1 3 ∧
    (⟨"xx", 0, 1⟩ : Candidate) ∈ (⟨"xx", [⟨"xx", 0, 1⟩]⟩ : TokenCandidate).candidates ∧
    ("content", [("xx", 1)]) ∈ exDocC8.tokenFreq ∧
    0 < lookupTf [("xx", 1)] "xx" ∧ 1 ≤ exBuiltC8.totalDocuments ∧
    scoreVal exDocC8 (buildTokenCandidates ["xx"] exBuiltC8.docFreq false 1 3)
        exBuiltC8 <
      scoreVal (doubleFreq exDocC8 "content" "xx")
        (buildTokenCandidates ["xx"] exBuiltC8.docFreq false 1 3) exBuiltC8 :=
  ⟨List.mem_singleton.mpr rfl, List.mem_singleton.mpr rfl,
   List.mem_singleton.mpr rfl, by decide, le_refl 1,
   claim_C8 exBuiltC8 ["xx"] false 1 3 exDocC8 "content" [("xx", 1)]
     ⟨"xx", [⟨"xx", 0, 1⟩]⟩ ⟨"xx", 0, 1⟩
     (List.mem_singleton.mpr rfl) (List.mem_singleton.mpr rfl)
     (List.mem_singleton.mpr rfl) (by decide) (le_refl 1)⟩

/-! ## Lemmas about the fuzzy-truncation corpus -/

theorem mem_keys_of_lookupTf_pos {m : List (String × Nat)} {t : String}
    (h : 0 < lookupTf m t) : t ∈ m.map Prod.fst := by
  rw [lookupTf_eq_getD] at h
  rcases hfind : m.find? (fun p => p.1 == t) with _ | q
  · rw [hfind] at h
    simp at h
  · have hq : q.1 = t := by simpa using List.find?_some hfind
    exact List.mem_map.mpr ⟨q, List.mem_of_find?_eq_some hfind, hq⟩

theorem passesFilters_congr {o1 o2 : SearchOptions} (ht : o1.tags = o2.tags)
    (hs : o1.subscriptions = o2.subscriptions) (d : IndexedDocument) :
    passesFilters o1 d = passesFilters o2 d := by
  unfold passesFilters
  rw [ht, hs]

/-- The exact query candidates on the truncation corpus. -/
theorem exQcExact_eval :
    queryCandidates exBuiltA exOptsExact =
      [⟨"aaaa", [⟨"aaaa", 0, 1⟩]⟩] := rfl

/-- d1 is the only match of the exact search: the other two documents
accumulate score 0 and are dropped. -/
theorem exScoreD2_none :
    scoreDocument exDoc2 (queryCandidates exBuiltA exOptsExact) exBuiltA
      exOptsExact.kind = none := by
  unfold scoreDocument
  rw [if_neg (by decide : ¬ kindMismatch exOptsExact.kind exDoc2 = true)]
  have hz : scoreVal exDoc2 (queryCandidates exBuiltA exOptsExact) exBuiltA = 0 :=
    rfl
  rw [if_pos ⟨by decide, hz⟩]

theorem exScoreD3_none :
    scoreDocument exDoc3 (queryCandidates exBuiltA exOptsExact) exBuiltA
      exOptsExact.kind = none := by
  unfold scoreDocument
  rw [if_neg (by decide : ¬ kindMismatch exOptsExact.kind exDoc3 = true)]
  have hz : scoreVal exDoc3 (queryCandidates exBuiltA exOptsExact) exBuiltA = 0 :=
    rfl
  rw [if_pos ⟨by decide, hz⟩]

theorem exS1_pos :
    0 < scoreVal exDoc1 (queryCandidates exBuiltA exOptsExact) exBuiltA := by
  have hval : scoreVal exDoc1 (queryCandidates exBuiltA exOptsExact) exBuiltA =
      0 + ((1 : Nat) : ℝ) * ((3/2 : ℚ) : ℝ) * idf exBuiltA "aaaa" * ((1 : ℚ) : ℝ) :=
    rfl
  have hidf : 0 < idf exBuiltA "aaaa" := by
    unfold idf
    apply Real.log_pos
    rw [show exBuiltA.totalDocuments = 3 from rfl,
      show lookupTf exBuiltA.docFreq "aaaa" = 1 from rfl]
    norm_num
  rw [hval]
  push_cast
  nlinarith [hidf]

theorem exScoreD1_some :
    scoreDocument exDoc1 (queryCandidates exBuiltA exOptsExact) exBuiltA
      exOptsExact.kind =
      some (scoreVal exDoc1 (queryCandidates exBuiltA exOptsExact) exBuiltA) := by
  unfold scoreDocument
  rw [if_neg (by decide : ¬ kindMismatch exOptsExact.kind exDoc1 = true)]
  rw [if_neg (fun hc => absurd hc.2 (ne_of_gt exS1_pos))]

theorem exScoredExact_eval :
    scoredList exBuiltA exOptsExact =
      [(exDoc1, scoreVal exDoc1 (queryCandidates exBuiltA exOptsExact) exBuiltA)] := by
  unfold scoredList
  have hdocs : exBuiltA.documents = [exDoc1, exDoc2, exDoc3] := rfl
  rw [hdocs]
  rw [List.filterMap_cons, List.filterMap_cons, List.filterMap_cons,
    List.filterMap_nil]
  rw [if_pos (by decide : passesFilters exOptsExact exDoc1 = true)]
  rw [if_pos (by decide : passesFilters exOptsExact exDoc2 = true)]
  rw [if_pos (by decide : passesFilters exOptsExact exDoc3 = true)]
  rw [exScoreD1_some, exScoreD2_none, exScoreD3_none]
  rfl

/-- The full evaluation of the exact search: exactly the d1 hit. -/
theorem exSearchExact_eval :
    searchAdvanced exBuiltA exOptsExact =
      [mkHit exDoc1 (snippetTokensOf exBuiltA exOptsExact)
        (scoreVal exDoc1 (queryCandidates exBuiltA exOptsExact) exBuiltA)] := by
  unfold searchAdvanced
  rw [exScoredExact_eval]
  rfl

/-- The fuzzy candidates of aaab with the default budget 3: the stable
sort puts the synthesized exact entry first and ranks baab and caab (two
documents each) above aaaa (one document), so aaaa is truncated away. -/
theorem exQcFuzzy3_eval :
    queryCandidates exBuiltA exOptsFuzzy3 =
      [⟨"aaab", [⟨"aaab", 0, 1⟩, ⟨"baab", 1, 3/5⟩, ⟨"caab", 1, 3/5⟩]⟩] := rfl

/-- Under the truncated candidate set, d1 scores 0 and is excluded. -/
theorem exScoreD1_fuzzy3_none :
    scoreDocument exDoc1 (queryCandidates exBuiltA exOptsFuzzy3) exBuiltA
      exOptsFuzzy3.kind = none := by
  unfold scoreDocument
  rw [if_neg (by decide : ¬ kindMismatch exOptsFuzzy3.kind exDoc1 = true)]
  have hz : scoreVal exDoc1 (queryCandidates exBuiltA exOptsFuzzy3) exBuiltA = 0 :=
    rfl
  rw [if_pos ⟨by decide, hz⟩]

/-- Claim C2 counterexample: d1 is returned by the exact fuzzy-disabled
search for aaaa, the query token aaab is at edit distance 1, fuzzy
matching is on with maxEdits 1 and an ample page limit, yet the fuzzy
search does not return d1: the candidate truncation to
fuzzyMaxCandidates 3 drops aaaa. -/
theorem claim_C2_counterexample :
    levenshtein "aaab" "aaaa" = 1 ∧
    (∃ h ∈ searchAdvanced exBuiltA exOptsExact, h.id = "d1") ∧
    (∀ h ∈ searchAdvanced exBuiltA exOptsFuzzy3, h.id ≠ "d1") := by
  refine ⟨by decide, ?_, ?_⟩
  · refine ⟨mkHit exDoc1 (snippetTokensOf exBuiltA exOptsExact)
      (scoreVal exDoc1 (queryCandidates exBuiltA exOptsExact) exBuiltA), ?_, rfl⟩
    rw [exSearchExact_eval]
    exact List.mem_singleton.mpr rfl
  · intro h hmem
    rcases mem_searchAdvanced hmem with ⟨p, hp, rfl⟩
    obtain ⟨hd, _, hscore⟩ := mem_scoredList.mp hp
    have hd3 : p.1 ∈ [exDoc1, exDoc2, exDoc3] := hd
    rcases List.mem_cons.mp hd3 with h1 | hd3
    · rw [h1] at hscore
      rw [exScoreD1_fuzzy3_none] at hscore
      exact absurd hscore (by simp)
    rcases List.mem_cons.mp hd3 with h2 | hd3
    · rw [show (mkHit p.1 (snippetTokensOf exBuiltA exOptsFuzzy3) p.2).id = p.1.id
        from rfl, h2]
      decide
    rcases List.mem_cons.mp hd3 with h3 | hd3
    · rw [show (mkHit p.1 (snippetTokensOf exBuiltA exOptsFuzzy3) p.2).id = p.1.id
        from rfl, h3]
      decide
    · exact absurd hd3 (List.not_mem_nil p.1)

/-- Claim C2, amended: a document returned by an exact fuzzy-disabled
search for a token t is still returned when searching a token at edit
distance 1 with fuzzy enabled and maxEdits of at least 1, provided the
page is large enough and, additionally, the fuzzy candidate budget is at
least the size of the unsorted candidate pool, so that the truncation to
fuzzyMaxCandidates cannot drop the corrected token (the counterexample
shows the claim fails without that proviso). -/
theorem claim_C2 (records : List RecordItem) (opts1 opts2 : SearchOptions)
    (t t' : String) (h : SearchHit)
    (hmem : h ∈ searchAdvanced (buildIndex records) opts1)
    (htok1 : parseQuery opts1.query = [t])
    (hfz1 : opts1.fuzzy.getD true = false)
    (htok2 : parseQuery opts2.query = [t'])
    (hfz2 : opts2.fuzzy.getD true = true)
    (hlev : levenshtein t' t = 1)
    (hme : 1 ≤ opts2.fuzzyMaxEdits.getD 1)
    (hmc : (fuzzyCandidatesAll t' (buildIndex records).docFreq
        (opts2.fuzzyMaxEdits.getD 1)).length ≤ opts2.fuzzyMaxCandidates.getD 3)
    (hkind : opts2.kind = opts1.kind) (htags : opts2.tags = opts1.tags)
    (hsubs : opts2.subscriptions = opts1.subscriptions)
    (hoff : opts2.offset.getD 0 = 0)
    (hlim : (scoredList (buildIndex records) opts2).length ≤
      opts2.limit.getD 10) :
    ∃ h2 ∈ searchAdvanced (buildIndex records) opts2, h2.id = h.id := by
  set built := buildIndex records with hbuilt
  rcases mem_searchAdvanced hmem with ⟨p, hp, rfl⟩
  obtain ⟨hD, hpass1, hscore1⟩ := mem_scoredList.mp hp
  have htcs1 : queryCandidates built opts1 = [⟨t, [⟨t, 0, 1⟩]⟩] := by
    unfold queryCandidates
    rw [htok1, hfz1]
    rfl
  rw [htcs1] at hscore1
  unfold scoreDocument at hscore1
  by_cases hkm : kindMismatch opts1.kind p.1 = true
  · rw [if_pos hkm] at hscore1
    exact absurd hscore1 (by simp)
  rw [if_neg hkm] at hscore1
  by_cases hz : 0 < ([⟨t, [⟨t, 0, 1⟩]⟩] : List TokenCandidate).length ∧
      scoreVal p.1 [⟨t, [⟨t, 0, 1⟩]⟩] built = 0
  · rw [if_pos hz] at hscore1
    exact absurd hscore1 (by simp)
  rw [if_neg hz] at hscore1
  have hs_ne : scoreVal p.1 [⟨t, [⟨t, 0, 1⟩]⟩] built ≠ 0 := by
    intro h0
    exact hz ⟨by simp, h0⟩
  have hfield : ∃ p0 ∈ p.1.tokenFreq, 0 < lookupTf p0.2 t := by
    by_contra hnone
    push_neg at hnone
    apply hs_ne
    rw [scoreVal_eq_sum]
    have hfilter : p.1.tokenFreq.filter
        (fun q => decide (0 < lookupTf q.2 t)) = [] := by
      rw [List.filter_eq_nil_iff]
      intro a ha
      simp only [decide_eq_true_eq]
      have := hnone a ha
      omega
    simp [candTerm, hfilter]
  rcases hfield with ⟨p0, hp0, hfreq0⟩
  have hN : 1 ≤ built.totalDocuments := by
    have hlen : built.totalDocuments = built.documents.length := rfl
    rw [hlen]
    exact List.length_pos.mpr (List.ne_nil_of_mem hD)
  have hvocab : t ∈ built.docFreq.map Prod.fst := by
    apply mem_keys_of_lookupTf_pos
    have hdf : built.docFreq = buildDocFrequency (records.map indexRecord) := rfl
    rw [hdf, lookupTf_buildDocFrequency]
    have hseen : t ∈ seenTokens p.1 :=
      mem_seenTokens.mpr ⟨p0, hp0, mem_keys_of_lookupTf_pos hfreq0⟩
    have hmemf : p.1 ∈ (records.map indexRecord).filter
        (fun d => (seenTokens d).contains t) :=
      List.mem_filter.mpr ⟨hD, List.elem_iff.mpr hseen⟩
    exact List.length_pos.mpr (List.ne_nil_of_mem hmemf)
  have htcs2 : queryCandidates built opts2 =
      [⟨t', fuzzyMatchToken t' built.docFreq (opts2.fuzzyMaxEdits.getD 1)
        (opts2.fuzzyMaxCandidates.getD 3)⟩] := by
    unfold queryCandidates
    rw [htok2, hfz2]
    rfl
  have hnotrunc : fuzzyMatchToken t' built.docFreq (opts2.fuzzyMaxEdits.getD 1)
      (opts2.fuzzyMaxCandidates.getD 3) =
      stableSort (candLe built.docFreq)
        (fuzzyCandidatesAll t' built.docFreq (opts2.fuzzyMaxEdits.getD 1)) := by
    unfold fuzzyMatchToken
    apply List.take_of_length_le
    rw [length_stableSort]
    exact hmc
  have hct : (⟨t, levenshtein t' t, distWeight (levenshtein t' t)⟩ : Candidate) ∈
      fuzzyMatchToken t' built.docFreq (opts2.fuzzyMaxEdits.getD 1)
        (opts2.fuzzyMaxCandidates.getD 3) := by
    rw [hnotrunc, mem_stableSort]
    refine mem_fuzzyCandidatesAll.mpr (Or.inl ⟨t, hvocab, ?_, rfl⟩)
    rw [hlev]
    exact hme
  set c_t : Candidate := ⟨t, levenshtein t' t, distWeight (levenshtein t' t)⟩
    with hc_t
  have hw_pos : 0 < c_t.weight := distWeight_pos _
  have hterm_pos : 0 < fieldTerm built c_t p0 := by
    unfold fieldTerm
    have h1 : (0 : ℝ) < (lookupTf p0.2 c_t.token : ℝ) := by
      have htt : c_t.token = t := rfl
      rw [htt]
      exact_mod_cast hfreq0
    have h2 : (0 : ℝ) < ((fieldWeight p0.1 : ℚ) : ℝ) := by
      exact_mod_cast fieldWeight_pos p0.1
    have h3 := idf_pos built c_t.token hN
    have h4 : (0 : ℝ) < ((c_t.weight : ℚ) : ℝ) := by exact_mod_cast hw_pos
    exact mul_pos (mul_pos (mul_pos h1 h2) h3) h4
  have hcand_pos : 0 < candTerm built p.1 c_t := by
    have hmemf0 : p0 ∈ p.1.tokenFreq.filter
        (fun q => decide (0 < lookupTf q.2 c_t.token)) := by
      rw [List.mem_filter]
      refine ⟨hp0, ?_⟩
      simp only [decide_eq_true_eq]
      exact hfreq0
    have hnn : ∀ x ∈ (p.1.tokenFreq.filter
        (fun q => decide (0 < lookupTf q.2 c_t.token))).map (fieldTerm built c_t),
        0 ≤ x := by
      intro x hx
      rcases List.mem_map.mp hx with ⟨q, _, rfl⟩
      exact fieldTerm_nonneg built c_t q hw_pos.le
    have hsingle := List.single_le_sum hnn _
      (List.mem_map.mpr ⟨p0, hmemf0, rfl⟩)
    unfold candTerm
    linarith [hterm_pos, hsingle]
  have hs2_pos : 0 < scoreVal p.1 (queryCandidates built opts2) built := by
    rw [htcs2, scoreVal_eq_sum]
    simp only [List.map_cons, List.map_nil, List.sum_cons, List.sum_nil, add_zero]
    have hnn : ∀ x ∈ (fuzzyMatchToken t' built.docFreq
        (opts2.fuzzyMaxEdits.getD 1) (opts2.fuzzyMaxCandidates.getD 3)).map
          (candTerm built p.1), 0 ≤ x := by
      intro x hx
      rcases List.mem_map.mp hx with ⟨c', hc', rfl⟩
      exact candTerm_nonneg built p.1 c' (fuzzyMatchToken_weight_pos hc').le
    have hsingle := List.single_le_sum hnn _ (List.mem_map.mpr ⟨c_t, hct, rfl⟩)
    linarith [hcand_pos, hsingle]
  have hscore2 : scoreDocument p.1 (queryCandidates built opts2) built
      opts2.kind = some (scoreVal p.1 (queryCandidates built opts2) built) := by
    unfold scoreDocument
    rw [hkind, if_neg hkm]
    rw [if_neg (fun hc => absurd hc.2 (ne_of_gt hs2_pos))]
  have hpass2 : passesFilters opts2 p.1 = true := by
    rw [passesFilters_congr htags hsubs]
    exact hpass1
  have hmem2 : (p.1, scoreVal p.1 (queryCandidates built opts2) built) ∈
      scoredList built opts2 :=
    mem_scoredList.mpr ⟨hD, hpass2, hscore2⟩
  refine ⟨mkHit p.1 (snippetTokensOf built opts2)
    (scoreVal p.1 (queryCandidates built opts2) built), ?_, rfl⟩
  unfold searchAdvanced
  rw [hoff, List.drop_zero]
  rw [List.take_of_length_le (by rw [length_stableSort]; exact hlim)]
  exact List.mem_map.mpr
    ⟨(p.1, scoreVal p.1 (queryCandidates built opts2) built),
      mem_stableSort.mpr hmem2, rfl⟩

/-- Claim C2 witness: the same corpus as the counterexample, with the
candidate budget raised to 5 so no candidate is truncated; the d1 hit of
the exact search is recovered by the typo search. -/
theorem claim_C2_witness :
    levenshtein "aaab" "aaaa" = 1 ∧
    (fuzzyCandidatesAll "aaab" (buildIndex exRecordsA).docFreq 1).length ≤ 5 ∧
    (∃ h2 ∈ searchAdvanced (buildIndex exRecordsA) exOptsFuzzy5,
      h2.id = (mkHit exDoc1 (snippetTokensOf exBuiltA exOptsExact)
        (scoreVal exDoc1 (queryCandidates exBuiltA exOptsExact) exBuiltA)).id) :=
  ⟨by decide, by decide,
    claim_C2 exRecordsA exOptsExact exOptsFuzzy5 "aaaa" "aaab"
      (mkHit exDoc1 (snippetTokensOf exBuiltA exOptsExact)
        (scoreVal exDoc1 (queryCandidates exBuiltA exOptsExact) exBuiltA))
      (show _ ∈ searchAdvanced (buildIndex exRecordsA) exOptsExact from by
        rw [show searchAdvanced (buildIndex exRecordsA) exOptsExact =
            [mkHit exDoc1 (snippetTokensOf exBuiltA exOptsExact)
              (scoreVal exDoc1 (queryCandidates exBuiltA exOptsExact) exBuiltA)]
          from exSearchExact_eval]
        exact List.mem_singleton.mpr rfl)
      (by decide) rfl (by decide) rfl (by decide) (by decide) (by decide)
      rfl rfl rfl rfl
      (by unfold scoredList
          exact le_trans (List.length_filterMap_le _ _) (by decide))⟩

end Mechanic
